import Mathlib

/-!
Verification development for the obsidian-reflection-chat repository.

Shallow embedding of the context-retrieval / vector-index subsystem:
the vector store (`src/infrastructure/VectorStore.ts`), the note indexer
(`src/infrastructure/NoteIndexer.ts`), and the context retriever
(`src/core` ContextRetriever).

Modelling conventions:
  * A JavaScript number is modelled by `JSNum`: a finite rational, NaN,
    or a signed infinity.  Finite float arithmetic is idealised by exact
    rational/real arithmetic (no rounding, no overflow); `Math.sqrt` and
    division are idealised over the reals, which is why score-valued
    functions live in `ℝ`.
  * A JS `Map` is an insertion-ordered association list with unique keys
    (JS `Map.set` keeps the original position of an existing key); a JS
    `Set` is an insertion-ordered duplicate-free list.
  * `async` methods are single-threaded state transformers; an exception
    is an `Except.error` result, which leaves the (functional) state as
    it was at the throw site — all throws in the modelled code happen
    before any mutation.
-/

namespace ReflectionChat

/-- A JavaScript number: a finite value (idealised as a rational), `NaN`,
or one of the two infinities. -/
inductive JSNum where
  | num (q : ℚ)
  | nan
  | inf
  | neginf
deriving DecidableEq, Repr

namespace JSNum

/-- `Number.isFinite`. -/
def isFinite : JSNum → Bool
  | num _ => true
  | _ => false

/-- The rational payload of a finite value (0 for the non-finite ones,
which the modelled code never feeds into arithmetic). -/
def val : JSNum → ℚ
  | num q => q
  | _ => 0

instance : OfNat JSNum n := ⟨num n⟩

end JSNum

/-- `VectorMetadata` from `VectorStore.ts`. -/
structure VectorMetadata where
  path : String
  title : String
  date : String
  summary : String
  tags : List String
  category : String
  type : String
deriving DecidableEq, Repr

/-- `VectorItem` from `VectorStore.ts`: one stored record. -/
structure VectorItem where
  id : String
  vector : List JSNum
  metadata : VectorMetadata
deriving DecidableEq, Repr

/-- `VectorSearchResult` from `VectorStore.ts`; the score is a real
number (idealised float). -/
structure VectorSearchResult where
  id : String
  score : ℝ
  metadata : VectorMetadata

/-- `Partial<VectorMetadata>`: the optional filter argument of `search`.
Only the fields the repository ever filters on are modelled with their
exact-match / tags-overlap semantics from `matchesFilter`. -/
structure MetadataFilter where
  path : Option String := none
  title : Option String := none
  date : Option String := none
  summary : Option String := none
  tags : Option (List String) := none
  category : Option String := none
  type : Option String := none
deriving DecidableEq, Repr

/-- `VectorStore.MIN_VECTOR_DIMENSION`. -/
def MIN_VECTOR_DIMENSION : Nat := 64

/-- `VectorStore.MAX_VECTOR_DIMENSION`. -/
def MAX_VECTOR_DIMENSION : Nat := 4096

/-- `VectorStore.MAX_FILENAME_LENGTH`. -/
def MAX_FILENAME_LENGTH : Nat := 100

/-- `VectorStore.EPSILON = 1e-10`. -/
noncomputable def EPSILON : ℝ := 1 / 10 ^ 10

/-- `isValidVectorForUpsert` (VectorStore.ts:279-296): length within
`[MIN_VECTOR_DIMENSION, MAX_VECTOR_DIMENSION]` and every element a
finite number. -/
def isValidVectorForUpsert (vector : List JSNum) : Bool :=
  if vector.length < MIN_VECTOR_DIMENSION ∨ MAX_VECTOR_DIMENSION < vector.length then
    false
  else
    vector.all (fun x => x.isFinite)

/-- `isValidVectorForLoad` (VectorStore.ts:257-274): length bounds plus a
sampled finiteness check of the first and last element only. -/
def isValidVectorForLoad (vector : List JSNum) : Bool :=
  if vector.length < MIN_VECTOR_DIMENSION ∨ MAX_VECTOR_DIMENSION < vector.length then
    false
  else
    (vector.getD 0 JSNum.nan).isFinite &&
      (vector.getD (vector.length - 1) JSNum.nan).isFinite

/-- `isValidVector` (VectorStore.ts:669-681): non-empty, with the first,
middle and last elements finite (sampling). -/
def isValidVector (vector : List JSNum) : Bool :=
  if vector.length = 0 then false
  else
    [0, vector.length / 2, vector.length - 1].all
      (fun i => (vector.getD i JSNum.nan).isFinite)

/-- The accumulator loop of `cosineSimilarity` (VectorStore.ts:642-654):
walks both vectors in lockstep accumulating `(dotProduct, normA, normB)`
and aborts (`none`, which the caller turns into score 0) at the first
non-finite element.  The accumulation is exact rational arithmetic. -/
def cosLoop : List JSNum → List JSNum → Option (ℚ × ℚ × ℚ)
  | [], _ => some (0, 0, 0)
  | _ :: _, [] => some (0, 0, 0)
  | a :: as, b :: bs =>
    if a.isFinite ∧ b.isFinite then
      match cosLoop as bs with
      | none => none
      | some (d, na, nb) => some (d + a.val * b.val, na + a.val * a.val, nb + b.val * b.val)
    else
      none

/-- `cosineSimilarity` (VectorStore.ts:633-664): 0 on length mismatch or
any non-finite element; otherwise `dot / (sqrt normA * sqrt normB)`,
guarded to 0 when the magnitude product is below `EPSILON`.  The final
`Number.isFinite(similarity)` re-check of the source is an identity in
the real-number idealisation (the denominator is at least `EPSILON`). -/
noncomputable def cosineSimilarity (a b : List JSNum) : ℝ :=
  if a.length ≠ b.length then 0
  else
    match cosLoop a b with
    | none => 0
    | some (d, na, nb) =>
      let magnitude : ℝ := Real.sqrt (na : ℝ) * Real.sqrt (nb : ℝ)
      if magnitude < EPSILON then 0 else (d : ℝ) / magnitude

/-- All elements of a vector are finite numbers. -/
def allFinite (v : List JSNum) : Bool := v.all (fun x => x.isFinite)

/-- Mathematical dot product of the finite payloads. -/
def dotQ (a b : List JSNum) : ℚ := ((a.zip b).map (fun p => p.1.val * p.2.val)).sum

/-- Sum of squares of the finite payloads. -/
def normSqQ (a : List JSNum) : ℚ := (a.map (fun x => x.val * x.val)).sum

/-- Mathematical magnitude (Euclidean norm) of a vector of finite
payloads. -/
noncomputable def magnitudeR (a : List JSNum) : ℝ := Real.sqrt ((normSqQ a : ℝ))

lemma cosLoop_eq_some_of_allFinite (a b : List JSNum)
    (ha : allFinite a = true) (hb : allFinite b = true) (hlen : a.length = b.length) :
    cosLoop a b = some (dotQ a b, normSqQ a, normSqQ b) := by
  induction a generalizing b with
  | nil =>
    cases b with
    | nil => simp [cosLoop, dotQ, normSqQ]
    | cons y ys => simp at hlen
  | cons x xs ih =>
    cases b with
    | nil => simp at hlen
    | cons y ys =>
      simp only [allFinite, List.all_cons, Bool.and_eq_true] at ha hb
      have hx := ha.1
      have hy := hb.1
      have hlen' : xs.length = ys.length := by simpa using hlen
      have := ih ys (by simp [allFinite, ha.2]) (by simp [allFinite, hb.2]) hlen'
      simp only [cosLoop, hx, hy, and_self, if_true, this, dotQ, normSqQ,
        List.zip_cons_cons, List.map_cons, List.sum_cons, Option.some.injEq, Prod.mk.injEq]
      refine ⟨by ring, by ring, by ring⟩

lemma cosLoop_eq_none_of_not_finite (a b : List JSNum)
    (hlen : a.length = b.length)
    (h : (∃ x ∈ a, x.isFinite = false) ∨ (∃ x ∈ b, x.isFinite = false)) :
    cosLoop a b = none := by
  induction a generalizing b with
  | nil =>
    cases b with
    | nil => simp at h
    | cons y ys => simp at hlen
  | cons x xs ih =>
    cases b with
    | nil => simp at hlen
    | cons y ys =>
      by_cases hx : x.isFinite = true
      · by_cases hy : y.isFinite = true
        · have hlen' : xs.length = ys.length := by simpa using hlen
          have h' : (∃ z ∈ xs, z.isFinite = false) ∨ (∃ z ∈ ys, z.isFinite = false) := by
            rcases h with ⟨z, hz, hzf⟩ | ⟨z, hz, hzf⟩
            · rcases List.mem_cons.mp hz with rfl | hz'
              · rw [hx] at hzf; exact absurd hzf (by simp)
              · exact Or.inl ⟨z, hz', hzf⟩
            · rcases List.mem_cons.mp hz with rfl | hz'
              · rw [hy] at hzf; exact absurd hzf (by simp)
              · exact Or.inr ⟨z, hz', hzf⟩
          simp only [cosLoop, hx, hy, and_self, if_true, ih ys hlen' h']
        · simp only [cosLoop]
          rw [if_neg (by simp [hy])]
      · simp only [cosLoop]
        rw [if_neg (by simp [hx])]

lemma allFinite_false_iff (a : List JSNum) :
    ¬ allFinite a = true ↔ ∃ x ∈ a, x.isFinite = false := by
  simp only [allFinite, List.all_eq_true, Bool.not_eq_true]
  push_neg
  constructor
  · rintro ⟨x, hx, hfx⟩
    exact ⟨x, hx, by simpa using hfx⟩
  · rintro ⟨x, hx, hfx⟩
    exact ⟨x, hx, by simp [hfx]⟩

/-- **C5** — `cosineSimilarity` (VectorStore.ts:633-664) is totally
guarded: it returns 0 when the lengths differ, when either vector has a
non-finite element, or when the product of the two magnitudes is below
`EPSILON = 1e-10`; otherwise it equals the dot product divided by the
product of the magnitudes.  The score always lands in `ℝ` — together
with the `EPSILON` lower bound on every denominator this is the model's
rendering of "the result is never NaN or Infinity". -/
theorem cosineSimilarity_guarded (a b : List JSNum) :
    (a.length ≠ b.length → cosineSimilarity a b = 0) ∧
    ((¬ allFinite a = true ∨ ¬ allFinite b = true) → cosineSimilarity a b = 0) ∧
    (a.length = b.length → allFinite a = true → allFinite b = true →
      magnitudeR a * magnitudeR b < EPSILON → cosineSimilarity a b = 0) ∧
    (a.length = b.length → allFinite a = true → allFinite b = true →
      EPSILON ≤ magnitudeR a * magnitudeR b →
      cosineSimilarity a b = (dotQ a b : ℝ) / (magnitudeR a * magnitudeR b)) := by
  refine ⟨?_, ?_, ?_, ?_⟩
  · intro h
    simp [cosineSimilarity, h]
  · intro h
    by_cases hlen : a.length = b.length
    · have hnone : cosLoop a b = none := by
        apply cosLoop_eq_none_of_not_finite a b hlen
        rcases h with h | h
        · exact Or.inl ((allFinite_false_iff a).mp h)
        · exact Or.inr ((allFinite_false_iff b).mp h)
      simp [cosineSimilarity, hlen, hnone]
    · simp [cosineSimilarity, hlen]
  · intro hlen ha hb hmag
    have hsome := cosLoop_eq_some_of_allFinite a b ha hb hlen
    have hm : magnitudeR a * magnitudeR b < EPSILON := hmag
    simp only [cosineSimilarity, hlen, ne_eq, not_true_eq_false, if_false, hsome]
    rw [if_pos]
    exact hm
  · intro hlen ha hb hmag
    have hsome := cosLoop_eq_some_of_allFinite a b ha hb hlen
    simp only [magnitudeR] at hmag
    simp only [cosineSimilarity, hlen, ne_eq, not_true_eq_false, if_false, hsome]
    rw [if_neg (not_lt.mpr hmag)]
    simp [magnitudeR]

/-- Witness for `cosineSimilarity_guarded` at a concrete input: a
length-mismatched pair scores 0. -/
theorem cosineSimilarity_guarded_witness :
    ([JSNum.num 1].length ≠ ([] : List JSNum).length) ∧
      cosineSimilarity [JSNum.num 1] [] = 0 :=
  ⟨by decide, (cosineSimilarity_guarded [JSNum.num 1] []).1 (by decide)⟩

/-! ### The vector store state and its operations -/

/-- Lookup in the insertion-ordered item map (`this.items.get(id)`). -/
def mapGet (items : List VectorItem) (id : String) : Option VectorItem :=
  items.find? (fun it => it.id = id)

/-- `this.items.set(id, item)`: replace in place if the key exists
(JS `Map.set` keeps the original position), else append. -/
def mapSet (items : List VectorItem) (item : VectorItem) : List VectorItem :=
  if items.any (fun it => it.id = item.id) then
    items.map (fun it => if it.id = item.id then item else it)
  else
    items ++ [item]

/-- JS `Set.add`: append if not present (insertion order preserved). -/
def setAdd (s : List String) (id : String) : List String :=
  if id ∈ s then s else s ++ [id]

/-- JS `Set.delete` / `Map.delete` on a duplicate-free list. -/
def setRemove (s : List String) (id : String) : List String :=
  s.filter (fun x => x ≠ id)

/-- Errors thrown by the store's public methods, as messages in the
source: `notInitialized` = "VectorStore not initialized", `initFailed` =
"VectorStore initialization failed: …", `invalidVector n` =
"Invalid vector: expected 64-4096 dimensions, got n". -/
inductive VSError where
  | notInitialized
  | initFailed
  | invalidVector (len : Nat)
deriving DecidableEq, Repr

/-- The mutable fields of `VectorStore` relevant to its contract:
the in-memory item map, the dirty and deleted bookkeeping sets, the
`initialized` flag and the `initializationError` field (modelled as a
Bool: whether the error is non-null). -/
structure StoreState where
  items : List VectorItem
  dirtyItems : List String
  deletedItems : List String
  initialized : Bool
  initializationError : Bool
deriving DecidableEq, Repr

/-- The store as constructed (`constructor` + field initialisers). -/
def initialStoreState : StoreState :=
  { items := [], dirtyItems := [], deletedItems := [],
    initialized := false, initializationError := false }

/-- `hasInitializationError` (VectorStore.ts:113-115). -/
def hasInitializationError (st : StoreState) : Bool :=
  st.initializationError

/-- `initialize` (VectorStore.ts:58-93).  The `Promise.race` of
`doInitialize()` against the 30s timeout is abstracted into `outcome`:
`.ok loaded` is a successful `doInitialize` ending with the loaded
records, `.error e` is any internal failure or the timeout.  The
source's `catch` block installs an empty map, marks the store
initialized, and records the error; no exception escapes (the function
is total into `StoreState`).  Repeat calls on an initialized store
no-op; the `isInitializing` re-entry guard is moot in this sequential
model. -/
def initStore (st : StoreState) (outcome : Except String (List VectorItem)) : StoreState :=
  if st.initialized then st
  else
    match outcome with
    | .ok loaded =>
      { st with items := loaded, initialized := true, initializationError := false }
    | .error _ =>
      { st with items := [], initialized := true, initializationError := true }

/-- `upsert` (VectorStore.ts:492-515).  The trailing `scheduleSave()`
only arms the debounce timer and is not part of the persisted-state
bookkeeping modelled here. -/
def upsert (st : StoreState) (id : String) (vector : List JSNum)
    (metadata : VectorMetadata) : Except VSError StoreState :=
  if st.initialized = false then .error .notInitialized
  else if st.initializationError then .error .initFailed
  else if isValidVectorForUpsert vector = false then
    .error (.invalidVector vector.length)
  else
    .ok { st with
          items := mapSet st.items ⟨id, vector, metadata⟩,
          dirtyItems := setAdd st.dirtyItems id,
          deletedItems := setRemove st.deletedItems id }

/-- `delete` (VectorStore.ts:683-698): no-op if the id is absent. -/
def delete (st : StoreState) (id : String) : Except VSError StoreState :=
  if st.initialized = false then .error .notInitialized
  else if st.initializationError then .error .initFailed
  else if (mapGet st.items id).isSome then
    .ok { st with
          items := st.items.filter (fun it => it.id ≠ id),
          dirtyItems := setRemove st.dirtyItems id,
          deletedItems := setAdd st.deletedItems id }
  else
    .ok st

/-- `getItem` (VectorStore.ts:700-718). -/
def getItem (st : StoreState) (id : String) :
    Except VSError (Option VectorSearchResult) :=
  if st.initialized = false then .error .notInitialized
  else if st.initializationError then .error .initFailed
  else
    .ok (match mapGet st.items id with
      | none => none
      | some item => some ⟨item.id, 1, item.metadata⟩)

/-- Result of a `saveChanges` cycle (VectorStore.ts:385-449): the state
after the cycle, plus ghost records of the ids for which `saveItem`
resp. `deleteItemFile` was invoked (i.e. which record files were
written resp. deleted on disk). -/
structure SaveOutcome where
  state : StoreState
  savedIds : List String
  deletedIds : List String

/-- One step of the dirty-item loop of `saveChanges`: the item is saved
if still present (`saveOk` says whether the write succeeded — in the
source `saveItem` swallows its own errors after retries, so the failure
branch is dead code, but the model keeps it); a vanished item is just
dropped from the dirty set. -/
def saveStep (saveOk : String → Bool) (acc : StoreState × List String) (id : String) :
    StoreState × List String :=
  match mapGet acc.1.items id with
  | some _ =>
    if saveOk id then
      ({ acc.1 with dirtyItems := setRemove acc.1.dirtyItems id }, acc.2 ++ [id])
    else
      (acc.1, acc.2 ++ [id])
  | none =>
    ({ acc.1 with dirtyItems := setRemove acc.1.dirtyItems id }, acc.2)

/-- One step of the deleted-item loop of `saveChanges`. -/
def delStep (delOk : String → Bool) (acc : StoreState × List String) (id : String) :
    StoreState × List String :=
  if delOk id then
    ({ acc.1 with deletedItems := setRemove acc.1.deletedItems id }, acc.2 ++ [id])
  else
    (acc.1, acc.2 ++ [id])

/-- `saveChanges` (VectorStore.ts:385-449): iterate a snapshot of the
dirty set saving each still-present item, then a snapshot of the
deleted set removing each record file.  The promise-chain mutex is moot
in this sequential model. -/
def saveChanges (st : StoreState) (saveOk delOk : String → Bool) : SaveOutcome :=
  let saveRes := st.dirtyItems.foldl (saveStep saveOk) (st, [])
  let delRes := st.deletedItems.foldl (delStep delOk) (saveRes.1, [])
  ⟨delRes.1, saveRes.2, delRes.2⟩

/-- `clear` (VectorStore.ts:720-738): mark everything deleted, empty the
map and the dirty set, then flush synchronously via `saveChanges`. -/
def clear (st : StoreState) (saveOk delOk : String → Bool) :
    Except VSError SaveOutcome :=
  if st.initialized = false then .error .notInitialized
  else if st.initializationError then .error .initFailed
  else
    .ok (saveChanges
      { st with
        deletedItems := st.items.foldl (fun s it => setAdd s it.id) st.deletedItems,
        items := [],
        dirtyItems := [] }
      saveOk delOk)

/-- `flush` (VectorStore.ts:751-757): cancel the pending debounce timer
(not part of this state) and run `saveChanges`. -/
def flush (st : StoreState) (saveOk delOk : String → Bool) : SaveOutcome :=
  saveChanges st saveOk delOk

/-! ### Similarity search -/

/-- Placeholder metadata for out-of-range list reads (never reached on
the in-range accesses the source performs). -/
def dfltMeta : VectorMetadata := ⟨"", "", "", "", [], "", ""⟩

/-- Placeholder result for out-of-range list reads. -/
def dfltResult : VectorSearchResult := ⟨"", 0, dfltMeta⟩

/-- `matchesFilter` (VectorStore.ts:616-629): exact match per present
field, except `tags`, which succeeds when any filter tag occurs in the
item's tags. -/
def matchesFilter (metadata : VectorMetadata) (filter : MetadataFilter) : Bool :=
  (match filter.path with | none => true | some v => metadata.path == v) &&
  (match filter.title with | none => true | some v => metadata.title == v) &&
  (match filter.date with | none => true | some v => metadata.date == v) &&
  (match filter.summary with | none => true | some v => metadata.summary == v) &&
  (match filter.tags with
    | none => true
    | some filterTags => filterTags.any (fun t => metadata.tags.contains t)) &&
  (match filter.category with | none => true | some v => metadata.category == v) &&
  (match filter.type with | none => true | some v => metadata.type == v)

/-- The binary-search loop of `findInsertIndex` (VectorStore.ts:602-614)
on the descending-by-score result buffer. -/
noncomputable def findInsertIndexAux (results : List VectorSearchResult) (score : ℝ)
    (left right : Nat) : Nat :=
  if h : left < right then
    let mid := (left + right) / 2
    if (results.getD mid dfltResult).score > score then
      findInsertIndexAux results score (mid + 1) right
    else
      findInsertIndexAux results score left mid
  else left
termination_by right - left
decreasing_by
  · omega
  · omega

/-- `findInsertIndex` (VectorStore.ts:602-614). -/
noncomputable def findInsertIndex (results : List VectorSearchResult) (score : ℝ) : Nat :=
  findInsertIndexAux results score 0 results.length

/-- The running bounded result buffer of `search`: the sorted list and
`minScoreInResults`, where `none` stands for the initial `-Infinity`
(and for the `undefined` read off an empty buffer when `limit = 0`) —
in both cases the JS comparison `score <= minScoreInResults` is false,
as is `scoreBeatsMin` at `none`. -/
structure SearchAcc where
  results : List VectorSearchResult
  minScore : Option ℝ

/-- `results[results.length - 1].score` as an optional score. -/
noncomputable def lastScore (rs : List VectorSearchResult) : Option ℝ :=
  rs.getLast?.map (fun r => r.score)

/-- The JS guard `score <= minScoreInResults`. -/
noncomputable def scoreBeatsMin (score : ℝ) : Option ℝ → Bool
  | none => false
  | some m => decide (score ≤ m)

/-- The per-item body of the `search` scan loop (VectorStore.ts:555-594):
skip structurally invalid vectors, apply the filter, score, early-skip
when the full buffer cannot be improved, and insert in sorted position
(dropping the lowest when the buffer is full). -/
noncomputable def searchStep (queryVector : List JSNum) (limit : Nat)
    (filter : Option MetadataFilter) (acc : SearchAcc) (item : VectorItem) : SearchAcc :=
  if isValidVector item.vector = false then acc
  else if (match filter with
            | none => true
            | some f => matchesFilter item.metadata f) = false then acc
  else
    let score := cosineSimilarity queryVector item.vector
    if limit ≤ acc.results.length ∧ scoreBeatsMin score acc.minScore = true then acc
    else
      let result : VectorSearchResult := ⟨item.id, score, item.metadata⟩
      if acc.results.length < limit then
        let rs := acc.results.insertIdx (findInsertIndex acc.results score) result
        ⟨rs, if rs.length = limit then lastScore rs else acc.minScore⟩
      else
        let rs := (acc.results.insertIdx (findInsertIndex acc.results score) result).dropLast
        ⟨rs, lastScore rs⟩

/-- `search` (VectorStore.ts:527-597): guards, soft-fail on an invalid
query vector, then a left-to-right scan of the item map snapshot. -/
noncomputable def search (st : StoreState) (queryVector : List JSNum) (limit : Nat)
    (filter : Option MetadataFilter) : Except VSError (List VectorSearchResult) :=
  if st.initialized = false then .error .notInitialized
  else if st.initializationError then .error .initFailed
  else if isValidVector queryVector = false then .ok []
  else .ok (st.items.foldl (searchStep queryVector limit filter) ⟨[], none⟩).results

/-! ### Map/set helper lemmas -/

lemma mem_setAdd {s : List String} {id j : String} :
    j ∈ setAdd s id ↔ j ∈ s ∨ j = id := by
  unfold setAdd
  by_cases h : id ∈ s
  · simp only [h, if_true]
    constructor
    · exact Or.inl
    · rintro (hj | rfl) <;> assumption
  · simp [h]

lemma mem_setRemove {s : List String} {id j : String} :
    j ∈ setRemove s id ↔ j ∈ s ∧ j ≠ id := by
  simp [setRemove, List.mem_filter]

lemma mapGet_nil (x : String) : mapGet [] x = none := rfl

lemma mapGet_cons (hd : VectorItem) (tl : List VectorItem) (x : String) :
    mapGet (hd :: tl) x = if hd.id = x then some hd else mapGet tl x := by
  by_cases h : hd.id = x <;> simp [mapGet, List.find?_cons, h]

lemma mapGet_mapSet_self (items : List VectorItem) (it : VectorItem) :
    mapGet (mapSet items it) it.id = some it := by
  unfold mapSet
  by_cases h : items.any (fun x => x.id = it.id) = true
  · rw [if_pos h]
    induction items with
    | nil => simp at h
    | cons hd tl ih =>
      simp only [List.any_cons, Bool.or_eq_true, decide_eq_true_eq] at h
      by_cases hh : hd.id = it.id
      · rw [List.map_cons, if_pos hh, mapGet_cons, if_pos rfl]
      · have h' : tl.any (fun x => x.id = it.id) = true := by
          rcases h with h | h
          · exact absurd h hh
          · exact h
        rw [List.map_cons, if_neg hh, mapGet_cons, if_neg hh]
        exact ih h'
  · rw [if_neg h]
    induction items with
    | nil => rw [List.nil_append, mapGet_cons, if_pos rfl]
    | cons hd tl ih =>
      simp only [List.any_cons, Bool.or_eq_true, decide_eq_true_eq, not_or] at h
      rw [List.cons_append, mapGet_cons, if_neg h.1]
      exact ih (by simp [h.2])

lemma mapGet_mapSet_ne (items : List VectorItem) (it : VectorItem) (j : String)
    (hne : j ≠ it.id) :
    mapGet (mapSet items it) j = mapGet items j := by
  unfold mapSet
  by_cases h : items.any (fun x => x.id = it.id) = true
  · rw [if_pos h]
    clear h
    induction items with
    | nil => simp
    | cons hd tl ih =>
      rw [List.map_cons]
      by_cases hh : hd.id = it.id
      · rw [if_pos hh, mapGet_cons, mapGet_cons,
          if_neg (Ne.symm hne), if_neg (by rw [hh]; exact Ne.symm hne)]
        exact ih
      · rw [if_neg hh, mapGet_cons, mapGet_cons]
        by_cases hj : hd.id = j
        · rw [if_pos hj, if_pos hj]
        · rw [if_neg hj, if_neg hj]
          exact ih
  · rw [if_neg h]
    clear h
    induction items with
    | nil =>
      rw [List.nil_append, mapGet_cons, if_neg (Ne.symm hne)]
    | cons hd tl ih =>
      rw [List.cons_append, mapGet_cons, mapGet_cons]
      by_cases hj : hd.id = j
      · rw [if_pos hj, if_pos hj]
      · rw [if_neg hj, if_neg hj]
        exact ih

lemma mapGet_filter_ne (items : List VectorItem) (id j : String) (hne : j ≠ id) :
    mapGet (items.filter (fun it => it.id ≠ id)) j = mapGet items j := by
  induction items with
  | nil => rfl
  | cons hd tl ih =>
    by_cases hh : hd.id = id
    · rw [List.filter_cons, if_neg (by simp [hh]), mapGet_cons,
        if_neg (by rw [hh]; exact Ne.symm hne)]
      exact ih
    · rw [List.filter_cons, if_pos (by simp [hh]), mapGet_cons, mapGet_cons]
      by_cases hj : hd.id = j
      · rw [if_pos hj, if_pos hj]
      · rw [if_neg hj, if_neg hj]
        exact ih

/-! ### C2, C3, C6 — store operation contracts -/

/-- **C2** — on an initialized, non-degraded store, `upsert` with a
vector whose length is outside `[MIN_VECTOR_DIMENSION,
MAX_VECTOR_DIMENSION]` or containing a non-finite element throws the
validation error carrying the vector length.  In this functional
embedding an `Except.error` result is a throw before any mutation, so
the in-memory map and the dirty/deleted sets are the caller's unchanged
`st`. -/
theorem upsert_rejects_invalid_vector (st : StoreState) (id : String)
    (vector : List JSNum) (metadata : VectorMetadata)
    (hinit : st.initialized = true) (herr : st.initializationError = false)
    (hbad : vector.length < MIN_VECTOR_DIMENSION ∨
            MAX_VECTOR_DIMENSION < vector.length ∨
            ∃ x ∈ vector, x.isFinite = false) :
    upsert st id vector metadata = .error (.invalidVector vector.length) := by
  have hval : isValidVectorForUpsert vector = false := by
    unfold isValidVectorForUpsert
    rcases hbad with h | h | ⟨x, hx, hfx⟩
    · rw [if_pos (Or.inl h)]
    · rw [if_pos (Or.inr h)]
    · by_cases hlen : vector.length < MIN_VECTOR_DIMENSION ∨
        MAX_VECTOR_DIMENSION < vector.length
      · rw [if_pos hlen]
      · rw [if_neg hlen]
        exact List.all_eq_false.mpr ⟨x, hx, by simp [hfx]⟩
  simp [upsert, hinit, herr, hval]

/-- Witness for `upsert_rejects_invalid_vector`: an empty vector (length
0 < 64) on a freshly initialized store. -/
theorem upsert_rejects_invalid_vector_witness :
    ({ initialStoreState with initialized := true } : StoreState).initialized = true ∧
    upsert { initialStoreState with initialized := true } "note.md" [] dfltMeta =
      .error (.invalidVector 0) :=
  ⟨rfl, upsert_rejects_invalid_vector _ "note.md" [] dfltMeta rfl rfl
    (Or.inl (by decide))⟩

/-- **C3** — a failed (or timed-out) initialization degrades rather than
throws: the store ends initialized with an empty map and
`hasInitializationError` true, and in that state `upsert`, `search`,
`delete` and `getItem` all throw the explicit initialization-failed
error instead of acting like an empty healthy store. -/
theorem initStore_failure_degrades (st : StoreState) (e : String)
    (hini : st.initialized = false)
    (id : String) (vector : List JSNum) (metadata : VectorMetadata)
    (q : List JSNum) (k : Nat) (f : Option MetadataFilter) :
    (initStore st (.error e)).initialized = true ∧
    (initStore st (.error e)).items = [] ∧
    hasInitializationError (initStore st (.error e)) = true ∧
    upsert (initStore st (.error e)) id vector metadata = .error .initFailed ∧
    search (initStore st (.error e)) q k f = .error .initFailed ∧
    delete (initStore st (.error e)) id = .error .initFailed ∧
    getItem (initStore st (.error e)) id = .error .initFailed := by
  have h : initStore st (.error e) =
      { st with items := [], initialized := true, initializationError := true } := by
    simp [initStore, hini]
  rw [h]
  refine ⟨rfl, rfl, rfl, ?_, ?_, ?_, ?_⟩ <;>
    simp [upsert, search, delete, getItem, hasInitializationError]

/-- Witness for `initStore_failure_degrades` on the fresh store and a
concrete failure. -/
theorem initStore_failure_degrades_witness :
    initialStoreState.initialized = false ∧
    upsert (initStore initialStoreState (.error "timed out")) "a"
      [] dfltMeta = .error .initFailed :=
  ⟨rfl, (initStore_failure_degrades initialStoreState "timed out" rfl
    "a" [] dfltMeta [] 5 none).2.2.2.1⟩

/-- **C6** — round trip: on an initialized, non-degraded store, a valid
`upsert` succeeds, the stored record replaces any previous record for
that id in the map, and `getItem` returns a non-null result whose
metadata is exactly what was stored (with score 1.0). -/
theorem upsert_getItem_roundtrip (st : StoreState) (id : String)
    (vector : List JSNum) (metadata : VectorMetadata)
    (hinit : st.initialized = true) (herr : st.initializationError = false)
    (hval : isValidVectorForUpsert vector = true) :
    ∃ st', upsert st id vector metadata = .ok st' ∧
      mapGet st'.items id = some ⟨id, vector, metadata⟩ ∧
      getItem st' id = .ok (some ⟨id, 1, metadata⟩) := by
  have hup : upsert st id vector metadata = .ok { st with
      items := mapSet st.items ⟨id, vector, metadata⟩,
      dirtyItems := setAdd st.dirtyItems id,
      deletedItems := setRemove st.deletedItems id } := by
    simp [upsert, hinit, herr, hval]
  refine ⟨_, hup, ?_, ?_⟩
  · exact mapGet_mapSet_self st.items ⟨id, vector, metadata⟩
  · have hget := mapGet_mapSet_self st.items ⟨id, vector, metadata⟩
    simp [getItem, hinit, herr, hget]

/-- Witness for `upsert_getItem_roundtrip` with a concrete 64-dimension
all-ones vector. -/
theorem upsert_getItem_roundtrip_witness :
    isValidVectorForUpsert (List.replicate 64 (JSNum.num 1)) = true ∧
    ∃ st', upsert { initialStoreState with initialized := true } "j/n.md"
        (List.replicate 64 (JSNum.num 1)) dfltMeta = .ok st' ∧
      mapGet st'.items "j/n.md" =
        some ⟨"j/n.md", List.replicate 64 (JSNum.num 1), dfltMeta⟩ ∧
      getItem st' "j/n.md" = .ok (some ⟨"j/n.md", 1, dfltMeta⟩) :=
  ⟨by decide, upsert_getItem_roundtrip _ "j/n.md" _ dfltMeta rfl rfl (by decide)⟩

/-! ### C10 — the dirty/deleted bookkeeping invariant -/

/-- The persistence-bookkeeping invariant: no id is both dirty and
deleted, and every dirty id is present in the in-memory map. -/
def StoreInv (st : StoreState) : Prop :=
  (∀ id ∈ st.dirtyItems, id ∉ st.deletedItems) ∧
  (∀ id ∈ st.dirtyItems, (mapGet st.items id).isSome = true)

instance (st : StoreState) : Decidable (StoreInv st) := by
  unfold StoreInv
  infer_instance

lemma saveFold_spec (sOk : String → Bool) (l : List String) (st : StoreState)
    (acc : List String) :
    (l.foldl (saveStep sOk) (st, acc)).1.items = st.items ∧
    (l.foldl (saveStep sOk) (st, acc)).1.deletedItems = st.deletedItems ∧
    (∀ j ∈ (l.foldl (saveStep sOk) (st, acc)).1.dirtyItems, j ∈ st.dirtyItems) ∧
    (∀ j ∈ (l.foldl (saveStep sOk) (st, acc)).2, j ∈ acc ∨ j ∈ l) := by
  induction l generalizing st acc with
  | nil => exact ⟨rfl, rfl, fun j hj => hj, fun j hj => Or.inl hj⟩
  | cons id tl ih =>
    have hstep : ∀ st' acc', saveStep sOk (st', acc') id = (st', acc') ∨
        saveStep sOk (st', acc') id =
          ({ st' with dirtyItems := setRemove st'.dirtyItems id }, acc') ∨
        saveStep sOk (st', acc') id =
          ({ st' with dirtyItems := setRemove st'.dirtyItems id }, acc' ++ [id]) ∨
        saveStep sOk (st', acc') id = (st', acc' ++ [id]) := by
      intro st' acc'
      unfold saveStep
      match h : mapGet st'.items id with
      | some it =>
        by_cases hs : sOk id = true
        · simp [hs]
        · simp [hs]
      | none => simp
    rcases hstep st acc with h | h | h | h <;>
    · rw [List.foldl_cons, h]
      rcases ih _ _ with ⟨h1, h2, h3, h4⟩
      refine ⟨by simpa using h1, by simpa using h2, ?_, ?_⟩
      · intro j hj
        have := h3 j hj
        first
        | exact this
        | exact (mem_setRemove.mp this).1
      · intro j hj
        rcases h4 j hj with hj' | hj'
        · first
          | exact Or.inl hj'
          | {rcases List.mem_append.mp hj' with hj'' | hj''
             · exact Or.inl hj''
             · have hje : j = id := by simpa using hj''
               exact Or.inr (hje ▸ List.mem_cons_self id tl)}
        · exact Or.inr (List.mem_cons_of_mem _ hj')

lemma delFold_spec (dOk : String → Bool) (l : List String) (st : StoreState)
    (acc : List String) :
    (l.foldl (delStep dOk) (st, acc)).1.items = st.items ∧
    (l.foldl (delStep dOk) (st, acc)).1.dirtyItems = st.dirtyItems ∧
    (∀ j ∈ (l.foldl (delStep dOk) (st, acc)).1.deletedItems, j ∈ st.deletedItems) ∧
    (l.foldl (delStep dOk) (st, acc)).2 = acc ++ l := by
  induction l generalizing st acc with
  | nil => exact ⟨rfl, rfl, fun j hj => hj, by simp⟩
  | cons id tl ih =>
    have hstep : delStep dOk (st, acc) id =
        ({ st with deletedItems := setRemove st.deletedItems id }, acc ++ [id]) ∨
        delStep dOk (st, acc) id = (st, acc ++ [id]) := by
      unfold delStep
      by_cases hs : dOk id = true
      · simp [hs]
      · simp [hs]
    rcases hstep with h | h <;>
    · rw [List.foldl_cons, h]
      rcases ih _ _ with ⟨h1, h2, h3, h4⟩
      refine ⟨by simpa using h1, by simpa using h2, ?_, by simpa using h4⟩
      intro j hj
      have := h3 j hj
      first
      | exact this
      | exact (mem_setRemove.mp this).1

lemma saveChanges_spec (st : StoreState) (sOk dOk : String → Bool) :
    (saveChanges st sOk dOk).state.items = st.items ∧
    (∀ j ∈ (saveChanges st sOk dOk).state.dirtyItems, j ∈ st.dirtyItems) ∧
    (∀ j ∈ (saveChanges st sOk dOk).state.deletedItems, j ∈ st.deletedItems) ∧
    (∀ j ∈ (saveChanges st sOk dOk).savedIds, j ∈ st.dirtyItems) ∧
    (saveChanges st sOk dOk).deletedIds = st.deletedItems := by
  unfold saveChanges
  dsimp only
  rcases saveFold_spec sOk st.dirtyItems st [] with ⟨s1, s2, s3, s4⟩
  rcases delFold_spec dOk st.deletedItems
    (st.dirtyItems.foldl (saveStep sOk) (st, [])).1 [] with ⟨d1, d2, d3, d4⟩
  refine ⟨by rw [d1, s1], ?_, ?_, ?_, by simpa using d4⟩
  · intro j hj
    rw [d2] at hj
    exact s3 j hj
  · intro j hj
    have := d3 j hj
    rw [s2] at this
    exact this
  · intro j hj
    rcases s4 j hj with hj' | hj'
    · exact absurd hj' (List.not_mem_nil j)
    · exact hj'

lemma storeInv_saveChanges (st : StoreState) (sOk dOk : String → Bool)
    (hinv : StoreInv st) : StoreInv (saveChanges st sOk dOk).state := by
  rcases saveChanges_spec st sOk dOk with ⟨h1, h2, h3, _, _⟩
  constructor
  · intro j hj hjd
    exact hinv.1 j (h2 j hj) (h3 j hjd)
  · intro j hj
    rw [h1]
    exact hinv.2 j (h2 j hj)

/-- **C10** — persistence bookkeeping: from any state satisfying the
invariant (no id both dirty and deleted; every dirty id present in the
map), every public operation — `upsert`, `delete`, `clear`, `flush`,
and the `saveChanges` cycle — preserves it; the invariant holds of the
freshly constructed store; a `delete` followed by an `upsert` of the
same id leaves the id out of the deleted set, so the next save cycle
does not delete its file; and a save cycle never writes (re-saves) the
file of an id in the deleted set. -/
theorem store_bookkeeping_invariant (st : StoreState) (hinv : StoreInv st) :
    StoreInv initialStoreState ∧
    (∀ id vector metadata st', upsert st id vector metadata = .ok st' → StoreInv st') ∧
    (∀ id st', delete st id = .ok st' → StoreInv st') ∧
    (∀ sOk dOk out, clear st sOk dOk = .ok out → StoreInv out.state) ∧
    (∀ sOk dOk, StoreInv (flush st sOk dOk).state) ∧
    (∀ sOk dOk, StoreInv (saveChanges st sOk dOk).state) ∧
    (∀ id st1 vector metadata st2, delete st id = .ok st1 →
      upsert st1 id vector metadata = .ok st2 →
      id ∉ st2.deletedItems ∧ ∀ sOk dOk, id ∉ (saveChanges st2 sOk dOk).deletedIds) ∧
    (∀ j ∈ st.deletedItems, ∀ sOk dOk, j ∉ (saveChanges st sOk dOk).savedIds) := by
  have hupsert : ∀ (s : StoreState) id vector metadata st',
      upsert s id vector metadata = .ok st' →
      st' = { s with items := mapSet s.items ⟨id, vector, metadata⟩,
                     dirtyItems := setAdd s.dirtyItems id,
                     deletedItems := setRemove s.deletedItems id } := by
    intro s id vector metadata st' hok
    unfold upsert at hok
    split_ifs at hok with h1 h2 h3 <;>
      first
        | exact Except.noConfusion hok
        | exact (Except.ok.inj hok).symm
  have hdelete : ∀ (s : StoreState) id st', delete s id = .ok st' →
      st' = s ∨
      st' = { s with items := s.items.filter (fun it => it.id ≠ id),
                     dirtyItems := setRemove s.dirtyItems id,
                     deletedItems := setAdd s.deletedItems id } := by
    intro s id st' hok
    unfold delete at hok
    split_ifs at hok with h1 h2 h3 <;>
      first
        | exact Except.noConfusion hok
        | exact Or.inr (Except.ok.inj hok).symm
        | exact Or.inl (Except.ok.inj hok).symm
  have hupsertInv : ∀ (s : StoreState), StoreInv s →
      ∀ id vector metadata st', upsert s id vector metadata = .ok st' → StoreInv st' := by
    intro s hs id vector metadata st' hok
    rw [hupsert s id vector metadata st' hok]
    constructor
    · intro j hj hjd
      rcases mem_setRemove.mp hjd with ⟨hjdel, hjne⟩
      rcases mem_setAdd.mp hj with hjd' | rfl
      · exact hs.1 j hjd' hjdel
      · exact hjne rfl
    · intro j hj
      rcases mem_setAdd.mp hj with hjd' | rfl
      · by_cases hje : j = id
        · subst hje
          have := mapGet_mapSet_self s.items ⟨j, vector, metadata⟩
          simp only at this
          simp [this]
        · rw [mapGet_mapSet_ne s.items ⟨id, vector, metadata⟩ j hje]
          exact hs.2 j hjd'
      · have := mapGet_mapSet_self s.items ⟨j, vector, metadata⟩
        simp only at this
        simp [this]
  have hdeleteInv : ∀ (s : StoreState), StoreInv s →
      ∀ id st', delete s id = .ok st' → StoreInv st' := by
    intro s hs id st' hok
    rcases hdelete s id st' hok with rfl | heq
    · exact hs
    · rw [heq]
      constructor
      · intro j hj hjd
        rcases mem_setRemove.mp hj with ⟨hjdir, hjne⟩
        rcases mem_setAdd.mp hjd with hjdel | rfl
        · exact hs.1 j hjdir hjdel
        · exact hjne rfl
      · intro j hj
        rcases mem_setRemove.mp hj with ⟨hjdir, hjne⟩
        rw [mapGet_filter_ne s.items id j hjne]
        exact hs.2 j hjdir
  refine ⟨⟨fun j hj => absurd hj (List.not_mem_nil j),
           fun j hj => absurd hj (List.not_mem_nil j)⟩,
    hupsertInv st hinv, hdeleteInv st hinv, ?_, ?_, ?_, ?_, ?_⟩
  · intro sOk dOk out hok
    unfold clear at hok
    split_ifs at hok with h1 h2 <;>
      first
        | exact Except.noConfusion hok
        | { rw [(Except.ok.inj hok).symm]
            apply storeInv_saveChanges
            exact ⟨fun j hj => absurd hj (List.not_mem_nil j),
                   fun j hj => absurd hj (List.not_mem_nil j)⟩ }
  · intro sOk dOk
    exact storeInv_saveChanges st sOk dOk hinv
  · intro sOk dOk
    exact storeInv_saveChanges st sOk dOk hinv
  · intro id st1 vector metadata st2 hdel hup
    have h2 := hupsert st1 id vector metadata st2 hup
    have hid2 : id ∉ st2.deletedItems := by
      rw [h2]
      intro hmem
      exact (mem_setRemove.mp hmem).2 rfl
    refine ⟨hid2, ?_⟩
    intro sOk dOk hmem
    rcases saveChanges_spec st2 sOk dOk with ⟨_, _, _, _, hdl⟩
    rw [hdl] at hmem
    exact hid2 hmem
  · intro j hjdel sOk dOk hmem
    rcases saveChanges_spec st sOk dOk with ⟨_, _, _, hsv, _⟩
    exact hinv.1 j (hsv j hmem) hjdel

/-- Witness for `store_bookkeeping_invariant`: the invariant holds of
the fresh store and is preserved by a save cycle on it. -/
theorem store_bookkeeping_invariant_witness :
    StoreInv initialStoreState ∧
    StoreInv (saveChanges initialStoreState (fun _ => true) (fun _ => true)).state :=
  ⟨(store_bookkeeping_invariant initialStoreState (by decide)).1,
   (store_bookkeeping_invariant initialStoreState (by decide)).2.2.2.2.2.1
     (fun _ => true) (fun _ => true)⟩

/-! ### C1 — search result ordering -/

/-- Results sorted by non-increasing score. -/
def SortedDesc (rs : List VectorSearchResult) : Prop :=
  List.Pairwise (fun a b => b.score ≤ a.score) rs

lemma sorted_getD_mono (rs : List VectorSearchResult) (hsort : SortedDesc rs)
    (i j : Nat) (hij : i ≤ j) (hj : j < rs.length) :
    (rs.getD j dfltResult).score ≤ (rs.getD i dfltResult).score := by
  rcases eq_or_lt_of_le hij with rfl | hlt
  · exact le_refl _
  · have hi : i < rs.length := lt_trans hlt hj
    rw [List.getD_eq_getElem rs dfltResult hj, List.getD_eq_getElem rs dfltResult hi]
    exact (List.pairwise_iff_getElem.mp hsort) i j hi hj hlt

lemma findInsertIndexAux_spec (rs : List VectorSearchResult) (s : ℝ)
    (hsort : SortedDesc rs) (left right : Nat) :
    left ≤ right → right ≤ rs.length →
    (∀ j, j < left → s < (rs.getD j dfltResult).score) →
    (∀ j, right ≤ j → j < rs.length → (rs.getD j dfltResult).score ≤ s) →
    left ≤ findInsertIndexAux rs s left right ∧
    findInsertIndexAux rs s left right ≤ right ∧
    (∀ j, j < findInsertIndexAux rs s left right →
      s < (rs.getD j dfltResult).score) ∧
    (∀ j, findInsertIndexAux rs s left right ≤ j → j < rs.length →
      (rs.getD j dfltResult).score ≤ s) := by
  generalize hfuel : right - left = n
  induction n using Nat.strong_induction_on generalizing left right with
  | _ n ih =>
    intro hlr hrl hpre hpost
    rw [findInsertIndexAux]
    by_cases h : left < right
    · rw [dif_pos h]
      have hmid1 : left ≤ (left + right) / 2 := by omega
      have hmid2 : (left + right) / 2 < right := by omega
      by_cases hgt : (rs.getD ((left + right) / 2) dfltResult).score > s
      · rw [if_pos hgt]
        have hpre' : ∀ j, j < (left + right) / 2 + 1 →
            s < (rs.getD j dfltResult).score := by
          intro j hj
          by_cases hjl : j < left
          · exact hpre j hjl
          · have hjm : j ≤ (left + right) / 2 := by omega
            calc s < (rs.getD ((left + right) / 2) dfltResult).score := hgt
            _ ≤ (rs.getD j dfltResult).score :=
              sorted_getD_mono rs hsort j ((left + right) / 2) hjm (by omega)
        rcases ih (right - ((left + right) / 2 + 1)) (by omega) ((left + right) / 2 + 1)
          right rfl (by omega) hrl hpre' hpost with ⟨i1, i2, i3, i4⟩
        exact ⟨by omega, i2, i3, i4⟩
      · rw [if_neg hgt]
        have hle : (rs.getD ((left + right) / 2) dfltResult).score ≤ s := not_lt.mp hgt
        have hpost' : ∀ j, (left + right) / 2 ≤ j → j < rs.length →
            (rs.getD j dfltResult).score ≤ s := by
          intro j hj hjlen
          calc (rs.getD j dfltResult).score
              ≤ (rs.getD ((left + right) / 2) dfltResult).score :=
                sorted_getD_mono rs hsort ((left + right) / 2) j hj hjlen
            _ ≤ s := hle
        rcases ih ((left + right) / 2 - left) (by omega) left ((left + right) / 2)
          rfl (by omega) (by omega) hpre hpost' with ⟨i1, i2, i3, i4⟩
        exact ⟨i1, by omega, i3, i4⟩
    · rw [dif_neg h]
      have hlr' : left = right := by omega
      exact ⟨le_refl _, by omega, hpre, by rw [hlr']; exact hpost⟩

lemma findInsertIndex_spec (rs : List VectorSearchResult) (s : ℝ)
    (hsort : SortedDesc rs) :
    findInsertIndex rs s ≤ rs.length ∧
    (∀ j, j < findInsertIndex rs s → s < (rs.getD j dfltResult).score) ∧
    (∀ j, findInsertIndex rs s ≤ j → j < rs.length →
      (rs.getD j dfltResult).score ≤ s) := by
  rcases findInsertIndexAux_spec rs s hsort 0 rs.length (Nat.zero_le _)
    (le_refl _) (by intro j hj; omega) (by intro j hj hjl; omega) with ⟨_, h2, h3, h4⟩
  exact ⟨h2, h3, h4⟩

lemma insertIdx_eq_take_cons_drop (x : VectorSearchResult) :
    ∀ (i : Nat) (l : List VectorSearchResult), i ≤ l.length →
      l.insertIdx i x = l.take i ++ x :: l.drop i
  | 0, l, _ => by simp [List.insertIdx_zero]
  | i + 1, [], h => by simp at h
  | i + 1, hd :: tl, h => by
    simp only [List.insertIdx_succ_cons, List.take_succ_cons, List.drop_succ_cons,
      List.cons_append, List.cons.injEq, true_and]
    exact insertIdx_eq_take_cons_drop x i tl (by simpa using h)

lemma sortedDesc_insertIdx (l : List VectorSearchResult) (x : VectorSearchResult)
    (i : Nat) (hi : i ≤ l.length) (hsort : SortedDesc l)
    (hbefore : ∀ j, j < i → x.score ≤ (l.getD j dfltResult).score)
    (hafter : ∀ j, i ≤ j → j < l.length → (l.getD j dfltResult).score ≤ x.score) :
    SortedDesc (l.insertIdx i x) := by
  rw [insertIdx_eq_take_cons_drop x i l hi]
  unfold SortedDesc
  rw [List.pairwise_append]
  refine ⟨hsort.sublist (List.take_sublist i l), ?_, ?_⟩
  · rw [List.pairwise_cons]
    refine ⟨?_, hsort.sublist (List.drop_sublist i l)⟩
    intro b hb
    rcases List.mem_iff_getElem.mp hb with ⟨k, hk, rfl⟩
    rw [List.getElem_drop l]
    have hik : i + k < l.length := by
      rw [List.length_drop] at hk
      omega
    have h := hafter (i + k) (by omega) hik
    rwa [List.getD_eq_getElem l dfltResult hik] at h
  · intro a ha b hb
    rcases List.mem_take_iff_getElem.mp ha with ⟨j, hj, rfl⟩
    have hj' : j < i := lt_of_lt_of_le hj (min_le_left _ _)
    have hjlen : j < l.length := lt_of_lt_of_le hj (min_le_right _ _)
    have hxa : x.score ≤ l[j].score := by
      have h := hbefore j hj'
      rwa [List.getD_eq_getElem l dfltResult hjlen] at h
    rcases List.mem_cons.mp hb with rfl | hb'
    · exact hxa
    · rcases List.mem_iff_getElem.mp hb' with ⟨k, hk, rfl⟩
      rw [List.getElem_drop l]
      have hik : i + k < l.length := by
        rw [List.length_drop] at hk
        omega
      have hbx := hafter (i + k) (by omega) hik
      rw [List.getD_eq_getElem l dfltResult hik] at hbx
      exact le_trans hbx hxa

lemma searchStep_inv (q : List JSNum) (limit : Nat) (f : Option MetadataFilter)
    (acc : SearchAcc) (item : VectorItem)
    (hsort : SortedDesc acc.results) (hlen : acc.results.length ≤ limit) :
    SortedDesc (searchStep q limit f acc item).results ∧
    (searchStep q limit f acc item).results.length ≤ limit := by
  rcases findInsertIndex_spec acc.results (cosineSimilarity q item.vector) hsort
    with ⟨hle, hbef, haft⟩
  have hsort' := sortedDesc_insertIdx acc.results
    ⟨item.id, cosineSimilarity q item.vector, item.metadata⟩
    (findInsertIndex acc.results (cosineSimilarity q item.vector)) hle hsort
    (fun j hj => le_of_lt (hbef j hj)) haft
  have hlen' : (acc.results.insertIdx
      (findInsertIndex acc.results (cosineSimilarity q item.vector))
      ⟨item.id, cosineSimilarity q item.vector, item.metadata⟩).length =
      acc.results.length + 1 :=
    List.length_insertIdx _ _ hle
  unfold searchStep
  dsimp only
  split_ifs with h1 h2 h3 h4 <;>
    first
      | exact ⟨hsort, hlen⟩
      | (refine ⟨hsort', ?_⟩
         dsimp only
         rw [hlen']
         omega)
      | (refine ⟨hsort'.sublist (List.dropLast_sublist _), ?_⟩
         dsimp only
         rw [List.length_dropLast, hlen']
         omega)

lemma searchFold_inv (q : List JSNum) (limit : Nat) (f : Option MetadataFilter)
    (items : List VectorItem) (acc : SearchAcc)
    (hsort : SortedDesc acc.results) (hlen : acc.results.length ≤ limit) :
    SortedDesc ((items.foldl (searchStep q limit f) acc).results) ∧
    ((items.foldl (searchStep q limit f) acc).results).length ≤ limit := by
  induction items generalizing acc with
  | nil => exact ⟨hsort, hlen⟩
  | cons hd tl ih =>
    rw [List.foldl_cons]
    rcases searchStep_inv q limit f acc hd hsort hlen with ⟨h1, h2⟩
    exact ih _ h1 h2

/-- **C1 (amended)** — on an initialized, non-degraded store, `search`
with limit `k ≥ 1` always succeeds with at most `k` results sorted by
non-increasing cosine score.  The result is a pure function of the
store, the query, the limit and the filter, so repeated calls on an
unchanged store return the identical list (tie order is stable).  The
original claim's tie-breaking direction is corrected by
`search_tie_reversal_counterexample`: two items with identical vectors
come back with the *later-inserted* item first, not in map insertion
order. -/
theorem search_sorted_and_bounded (st : StoreState) (q : List JSNum) (k : Nat)
    (f : Option MetadataFilter)
    (hinit : st.initialized = true) (herr : st.initializationError = false)
    (hk : 1 ≤ k) :
    ∃ rs, search st q k f = .ok rs ∧ rs.length ≤ k ∧ SortedDesc rs := by
  unfold search
  rw [hinit]
  simp only [Bool.true_eq_false, if_false, herr, if_false]
  by_cases hq : isValidVector q = false
  · rw [if_pos hq]
    exact ⟨[], rfl, by simp, List.Pairwise.nil⟩
  · rw [if_neg hq]
    rcases searchFold_inv q k f st.items ⟨[], none⟩ List.Pairwise.nil
      (by simp) with ⟨h1, h2⟩
    exact ⟨_, rfl, h2, h1⟩

/-- The query/stored vector used in the C1 witness and counterexample:
64 ones (a valid dimension with all elements finite). -/
def vOnes : List JSNum := List.replicate 64 (JSNum.num 1)

/-- Witness for `search_sorted_and_bounded`: a concrete one-item store. -/
theorem search_sorted_and_bounded_witness :
    ({ initialStoreState with initialized := true } : StoreState).initialized = true ∧
    1 ≤ (2 : Nat) ∧
    ∃ rs, search { initialStoreState with initialized := true } vOnes 2 none = .ok rs ∧
      rs.length ≤ 2 ∧ SortedDesc rs :=
  ⟨rfl, by omega,
    search_sorted_and_bounded { initialStoreState with initialized := true }
      vOnes 2 none rfl rfl (by omega)⟩

/-- The two-item store of the C1 counterexample: records `"a"` then
`"b"` (map insertion order) with mathematically identical vectors. -/
def cxStore : StoreState :=
  { items := [⟨"a", vOnes, dfltMeta⟩, ⟨"b", vOnes, dfltMeta⟩],
    dirtyItems := [], deletedItems := [],
    initialized := true, initializationError := false }

lemma findInsertIndexAux_self (rs : List VectorSearchResult) (s : ℝ) (l : Nat) :
    findInsertIndexAux rs s l l = l := by
  rw [findInsertIndexAux, dif_neg (lt_irrefl l)]

lemma searchStep_fill (q : List JSNum) (limit : Nat) (acc : SearchAcc)
    (item : VectorItem)
    (hvalid : isValidVector item.vector = true)
    (hnotfull : acc.results.length < limit) :
    searchStep q limit none acc item =
      ⟨acc.results.insertIdx
          (findInsertIndex acc.results (cosineSimilarity q item.vector))
          ⟨item.id, cosineSimilarity q item.vector, item.metadata⟩,
        if (acc.results.insertIdx
            (findInsertIndex acc.results (cosineSimilarity q item.vector))
            ⟨item.id, cosineSimilarity q item.vector, item.metadata⟩).length = limit
        then lastScore (acc.results.insertIdx
            (findInsertIndex acc.results (cosineSimilarity q item.vector))
            ⟨item.id, cosineSimilarity q item.vector, item.metadata⟩)
        else acc.minScore⟩ := by
  unfold searchStep
  dsimp only
  rw [hvalid]
  rw [if_neg (by simp), if_neg (by simp),
    if_neg (fun hc => absurd hnotfull (not_lt.mpr hc.1)), if_pos hnotfull]

/-- **C1 counterexample** — two records `"a"` (inserted first) and `"b"`
(inserted second) hold the identical vector `vOnes`; searching with that
vector and `k = 2` returns `"b"` *before* `"a"`: the binary-search
insert places an equal-score item before the existing ones, so the tie
order is the reverse of map insertion order, contradicting the claim
that the earlier-inserted item appears first. -/
theorem search_tie_reversal_counterexample :
    (search cxStore vOnes 2 none).map (fun rs => rs.map (fun r => r.id)) =
      .ok ["b", "a"] := by
  have hv : isValidVector vOnes = true := by decide
  have hfi0 : findInsertIndex ([] : List VectorSearchResult)
      (cosineSimilarity vOnes vOnes) = 0 := by
    unfold findInsertIndex
    exact findInsertIndexAux_self [] _ 0
  have hfi1 : findInsertIndex [⟨"a", cosineSimilarity vOnes vOnes, dfltMeta⟩]
      (cosineSimilarity vOnes vOnes) = 0 := by
    unfold findInsertIndex
    show findInsertIndexAux [⟨"a", cosineSimilarity vOnes vOnes, dfltMeta⟩]
      (cosineSimilarity vOnes vOnes) 0 1 = 0
    rw [findInsertIndexAux, dif_pos (by norm_num : (0 : Nat) < 1)]
    dsimp only
    rw [show ((0 : Nat) + 1) / 2 = 0 from rfl]
    rw [List.getD_cons_zero]
    rw [if_neg (lt_irrefl (cosineSimilarity vOnes vOnes))]
    exact findInsertIndexAux_self _ _ 0
  have hstepA : searchStep vOnes 2 none ⟨[], none⟩ ⟨"a", vOnes, dfltMeta⟩ =
      ⟨[⟨"a", cosineSimilarity vOnes vOnes, dfltMeta⟩], none⟩ := by
    rw [searchStep_fill vOnes 2 ⟨[], none⟩ ⟨"a", vOnes, dfltMeta⟩ hv (by simp)]
    dsimp only
    rw [hfi0]
    simp [List.insertIdx_zero]
  have hstepB : searchStep vOnes 2 none
      ⟨[⟨"a", cosineSimilarity vOnes vOnes, dfltMeta⟩], none⟩
      ⟨"b", vOnes, dfltMeta⟩ =
      ⟨[⟨"b", cosineSimilarity vOnes vOnes, dfltMeta⟩,
        ⟨"a", cosineSimilarity vOnes vOnes, dfltMeta⟩],
        some (cosineSimilarity vOnes vOnes)⟩ := by
    rw [searchStep_fill vOnes 2 _ ⟨"b", vOnes, dfltMeta⟩ hv (by simp)]
    dsimp only
    rw [hfi1]
    simp [List.insertIdx_zero, lastScore]
  have hsearch : search cxStore vOnes 2 none =
      .ok [⟨"b", cosineSimilarity vOnes vOnes, dfltMeta⟩,
           ⟨"a", cosineSimilarity vOnes vOnes, dfltMeta⟩] := by
    unfold search cxStore
    dsimp only
    rw [if_neg (by simp), if_neg (by simp), if_neg (by simp [hv])]
    rw [List.foldl_cons, hstepA, List.foldl_cons, hstepB, List.foldl_nil]
  rw [hsearch]
  rfl

/-! ### C8 — ContextRetriever context window clamping -/

/-- JS `Math.floor`: NaN and the infinities pass through. -/
def jsFloor : JSNum → JSNum
  | JSNum.num q => JSNum.num ⌊q⌋
  | JSNum.nan => JSNum.nan
  | JSNum.inf => JSNum.inf
  | JSNum.neginf => JSNum.neginf

/-- JS `Math.min`: NaN-propagating two-argument minimum. -/
def jsMin : JSNum → JSNum → JSNum
  | JSNum.nan, _ => JSNum.nan
  | _, JSNum.nan => JSNum.nan
  | JSNum.neginf, _ => JSNum.neginf
  | _, JSNum.neginf => JSNum.neginf
  | JSNum.inf, b => b
  | a, JSNum.inf => a
  | JSNum.num a, JSNum.num b => JSNum.num (min a b)

/-- JS `Math.max`: NaN-propagating two-argument maximum. -/
def jsMax : JSNum → JSNum → JSNum
  | JSNum.nan, _ => JSNum.nan
  | _, JSNum.nan => JSNum.nan
  | JSNum.inf, _ => JSNum.inf
  | _, JSNum.inf => JSNum.inf
  | JSNum.neginf, b => b
  | a, JSNum.neginf => a
  | JSNum.num a, JSNum.num b => JSNum.num (max a b)

/-- The inline clamp of the `ContextRetriever` constructor
(CoachCharacter.ts:155-158):
`Math.max(MIN, Math.min(MAX, Math.floor(contextWindowDays)))` with
`MIN_CONTEXT_WINDOW_DAYS = 1`, `MAX_CONTEXT_WINDOW_DAYS = 365`. -/
def ctorContextWindowDays (days : JSNum) : JSNum :=
  jsMax (JSNum.num 1) (jsMin (JSNum.num 365) (jsFloor days))

/-- `validateContextWindowDays` (CoachCharacter.ts:165-179), used by
`updateSettings`: default non-finite or too-small input to 1, clamp
above 365, floor otherwise. -/
def validateContextWindowDays (days : JSNum) : JSNum :=
  if days.isFinite = false ∨ days.val < 1 then JSNum.num 1
  else if 365 < days.val then JSNum.num 365
  else jsFloor days

/-- The stored window length is an integer in `[1, 365]`. -/
def windowInRange (x : JSNum) : Prop :=
  ∃ n : ℤ, x = JSNum.num (n : ℚ) ∧ 1 ≤ n ∧ n ≤ 365

/-- **C8 (code bug)** — `updateSettings` always stores an integer in
`[1, 365]` (NaN, the infinities and out-of-range values are defaulted or
clamped by `validateContextWindowDays`), and the constructor clamp
handles every value except NaN — but `Math.max(1, Math.min(365,
Math.floor(NaN)))` is NaN in JavaScript, so the constructor stores NaN,
violating the claim that the stored window is always in `[1, 365]`. -/
theorem contextWindowDays_nan_escapes_ctor_clamp :
    ctorContextWindowDays JSNum.nan = JSNum.nan ∧
    ¬ windowInRange (ctorContextWindowDays JSNum.nan) ∧
    (∀ q : ℚ, windowInRange (ctorContextWindowDays (JSNum.num q))) ∧
    ctorContextWindowDays JSNum.inf = JSNum.num 365 ∧
    ctorContextWindowDays JSNum.neginf = JSNum.num 1 ∧
    (∀ d : JSNum, windowInRange (validateContextWindowDays d)) := by
  refine ⟨rfl, ?_, ?_, ?_, ?_, ?_⟩
  · rintro ⟨n, hn, -⟩
    exact JSNum.noConfusion hn
  · intro q
    refine ⟨max 1 (min 365 ⌊q⌋), ?_, le_max_left _ _, ?_⟩
    · show JSNum.num (max 1 (min (365 : ℚ) ((⌊q⌋ : ℤ) : ℚ))) = _
      have h1 : (min (365 : ℚ) ((⌊q⌋ : ℤ) : ℚ)) = ((min 365 ⌊q⌋ : ℤ) : ℚ) := by
        push_cast
        rfl
      rw [h1]
      have h2 : (max (1 : ℚ) ((min 365 ⌊q⌋ : ℤ) : ℚ)) = ((max 1 (min 365 ⌊q⌋) : ℤ) : ℚ) := by
        push_cast
        rfl
      rw [h2]
    · exact max_le (by norm_num) (le_trans (min_le_left _ _) (by norm_num))
  · rfl
  · rfl
  · intro d
    unfold validateContextWindowDays
    by_cases h1 : d.isFinite = false ∨ d.val < 1
    · rw [if_pos h1]
      exact ⟨1, rfl, le_refl _, by norm_num⟩
    · rw [if_neg h1]
      push_neg at h1
      by_cases h2 : 365 < d.val
      · rw [if_pos h2]
        exact ⟨365, rfl, by norm_num, le_refl _⟩
      · rw [if_neg h2]
        rcases d with q | _ | _ | _
        · refine ⟨⌊q⌋, rfl, ?_, ?_⟩
          · rw [Int.le_floor]
            exact_mod_cast h1.2
          · have : ⌊q⌋ ≤ ⌊(365 : ℚ)⌋ := Int.floor_mono (not_lt.mp h2)
            simpa using this
        · exact absurd rfl h1.1
        · exact absurd rfl h1.1
        · exact absurd rfl h1.1

/-! ### C9 — the shape of the ConversationContext built by retrieve -/

/-- The fields of the `ConversationContext` interface (types.ts:63-68). -/
def conversationContextFields : List String :=
  ["recentNotes", "semanticMatches", "linkedEntities", "linkedGoals"]

/-- The fields of the object literal actually returned by
`ContextRetriever.retrieve` (CoachCharacter.ts:193-205): the three
sources fetched in parallel — and nothing else. -/
def retrieveResultFields : List String :=
  ["recentNotes", "semanticMatches", "linkedEntities"]

/-- **C9 (code bug)** — the `ConversationContext` data model declares a
`linkedGoals` field (which the Chat Engine consumes via
`context.linkedGoals.length`), but the object `retrieve` constructs has
only `recentNotes`, `semanticMatches` and `linkedEntities`: no
`linkedGoals` field is ever produced, for any `currentMessage` and
`history`. -/
theorem retrieve_missing_linkedGoals :
    "linkedGoals" ∈ conversationContextFields ∧
    "linkedGoals" ∉ retrieveResultFields ∧
    retrieveResultFields ≠ conversationContextFields := by
  refine ⟨?_, ?_, ?_⟩ <;> decide

/-! ### C7 — filename sanitization (`getFileNameForId`) -/

/-- A path separator (`/` or `\`). -/
def isSepChar (c : Char) : Bool := c = '/' ∨ c = '\\'

/-- `replace(/\.\./g, '')` (VectorStore.ts:313): remove non-overlapping
`..` pairs left to right. -/
def removeDotDot : List Char → List Char
  | '.' :: '.' :: rest => removeDotDot rest
  | c :: rest => c :: removeDotDot rest
  | [] => []

/-- The scanning loop of `replace(/\.+[/\\]/g, '')` (VectorStore.ts:314):
`n` is the length of the pending run of dots; a separator right after a
non-empty dot run consumes the run and itself, any other character
flushes the run. -/
def stripDotsSepAux : List Char → Nat → List Char
  | [], n => List.replicate n '.'
  | c :: rest, n =>
    if c = '.' then stripDotsSepAux rest (n + 1)
    else if isSepChar c = true ∧ 0 < n then stripDotsSepAux rest 0
    else List.replicate n '.' ++ c :: stripDotsSepAux rest 0

/-- `replace(/\.+[/\\]/g, '')` (VectorStore.ts:314). -/
def stripDotsSep (l : List Char) : List Char := stripDotsSepAux l 0

/-- `replace(/[/\\]\.+/g, '')` (VectorStore.ts:315): a separator
followed by one or more dots is removed (greedily, all the dots). -/
def stripSepDots : List Char → List Char
  | [] => []
  | [c] => [c]
  | c :: c2 :: rest =>
    if isSepChar c = true ∧ c2 = '.' then
      stripSepDots (rest.dropWhile (fun x => x = '.'))
    else
      c :: stripSepDots (c2 :: rest)
termination_by l => l.length
decreasing_by
  · simp only [List.length_cons]
    have h1 : rest.dropWhile (fun x => decide (x = '.')) <:+ rest :=
      List.dropWhile_suffix _
    have := h1.length_le
    omega
  · simp only [List.length_cons]
    omega

/-- `replace(/[/\\]/g, '_')` (VectorStore.ts:318). -/
def replaceSeps (l : List Char) : List Char :=
  l.map (fun c => if isSepChar c then '_' else c)

/-- One of `:*?"<>|`. -/
def isSpecialChar (c : Char) : Bool :=
  c ∈ [':', '*', '?', '"', '<', '>', '|']

/-- `replace(/[:*?"<>|]/g, '_')` (VectorStore.ts:322). -/
def replaceSpecials (l : List Char) : List Char :=
  l.map (fun c => if isSpecialChar c then '_' else c)

/-- JS `\s` (the ASCII part; the Unicode space classes behave the
same way for every property proved here). -/
def isWsChar (c : Char) : Bool :=
  c ∈ [' ', '\t', '\n', '\r', Char.ofNat 11, Char.ofNat 12]

/-- `replace(/\s+/g, '_')` (VectorStore.ts:323): each whitespace run
becomes a single underscore. -/
def collapseWs : List Char → List Char
  | [] => []
  | c :: rest =>
    if isWsChar c then '_' :: collapseWs (rest.dropWhile (fun x => isWsChar x))
    else c :: collapseWs rest
termination_by l => l.length
decreasing_by
  · simp only [List.length_cons]
    have h1 : rest.dropWhile (fun x => isWsChar x) <:+ rest :=
      List.dropWhile_suffix _
    have := h1.length_le
    omega
  · simp only [List.length_cons]
    omega

/-- `replace(/^\.+/, '')` (VectorStore.ts:324). -/
def dropLeadingDots (l : List Char) : List Char :=
  l.dropWhile (fun c => c = '.')

/-- `replace(/\.+$/, '')` (VectorStore.ts:325). -/
def dropTrailingDots (l : List Char) : List Char :=
  (l.reverse.dropWhile (fun c => c = '.')).reverse

/-- `ToInt32`: JavaScript's 32-bit signed wrap-around, applied by the
`<<` operator. -/
def toInt32 (n : ℤ) : ℤ := (n + 2 ^ 31) % 2 ^ 32 - 2 ^ 31

/-- `str.charCodeAt(i)` (code points beyond the BMP occupy two UTF-16
units in JS; they are a single `Char` here, which changes no property
proved about the hash). -/
def jsCharCode (c : Char) : ℤ := c.toNat

/-- One iteration of `hashCode` (VectorStore.ts:340-348):
`hash = (hash << 5) - hash + char`, where `<<` coerces to Int32 and
wraps, while `-`/`+` are exact (idealised float) arithmetic. -/
def hashStep (h : ℤ) (c : Char) : ℤ := toInt32 (toInt32 h * 32) - h + jsCharCode c

/-- `hashCode` (VectorStore.ts:340-348). -/
def hashCode (l : List Char) : ℤ := l.foldl hashStep 0

/-- One hex digit of `Number.toString(16)`. -/
def hexDigit (n : Nat) : Char :=
  "0123456789abcdef".toList.getD n '0'

/-- Most-significant-first hex digits of a positive number. -/
def natToHexAux (n : Nat) (acc : List Char) : List Char :=
  if h : n = 0 then acc
  else natToHexAux (n / 16) (hexDigit (n % 16) :: acc)
termination_by n
decreasing_by
  exact Nat.div_lt_self (Nat.pos_of_ne_zero h) (by norm_num)

/-- `Math.abs(hash).toString(16)` for a natural number. -/
def natToHex (n : Nat) : List Char :=
  if n = 0 then ['0'] else natToHexAux n []

/-- The sanitized base name before the empty-string fallback:
the full replace chain of VectorStore.ts:312-326 ending in
`substring(0, MAX_FILENAME_LENGTH)`. -/
def sanitizedBase (id : List Char) : List Char :=
  (dropTrailingDots (dropLeadingDots (collapseWs (replaceSpecials
    (replaceSeps (stripSepDots (stripDotsSep (removeDotDot id)))))))).take
    MAX_FILENAME_LENGTH

/-- `getFileNameForId` (VectorStore.ts:305-335): `none` models the
throw on an empty id; otherwise the sanitized base (or the hash-derived
fallback if sanitization yields the empty string) with `.json`
appended. -/
def getFileNameForId (id : List Char) : Option (List Char) :=
  if id = [] then none
  else
    let safeId := sanitizedBase id
    let base := if safeId = [] then "id_".toList ++ natToHex (hashCode id).natAbs
                else safeId
    some (base ++ ".json".toList)

/-- The base contains two adjacent dots (the `..` of path traversal). -/
def containsDotDot : List Char → Bool
  | '.' :: '.' :: _ => true
  | _ :: rest => containsDotDot rest
  | [] => false

lemma cdd_singleton (c : Char) : containsDotDot [c] = false := by
  rw [containsDotDot.eq_def]
  split
  · rename_i heq
    simp at heq
  · rename_i heq
    rw [List.cons.injEq] at heq
    rw [← heq.2]
    rfl
  · rfl

lemma cdd_cons_cons (a b : Char) (r : List Char) :
    containsDotDot (a :: b :: r) =
      if a = '.' ∧ b = '.' then true else containsDotDot (b :: r) := by
  by_cases h : a = '.' ∧ b = '.'
  · obtain ⟨rfl, rfl⟩ := h
    simp [containsDotDot]
  · rw [if_neg h]
    rw [containsDotDot.eq_def]
    split
    · rename_i heq
      rw [List.cons.injEq, List.cons.injEq] at heq
      exact absurd ⟨heq.1, heq.2.1⟩ h
    · rename_i heq
      rw [List.cons.injEq] at heq
      rw [← heq.2]
    · rename_i heq
      exact absurd heq (by simp)

lemma cdd_cons_of_ne (c : Char) (l : List Char) (hc : c ≠ '.') :
    containsDotDot (c :: l) = containsDotDot l := by
  cases l with
  | nil => rw [cdd_singleton]; rfl
  | cons b r => rw [cdd_cons_cons, if_neg (fun h => hc h.1)]

lemma cdd_dot_cons_of_ne (l : List Char) (hd : l.head? ≠ some '.') :
    containsDotDot ('.' :: l) = containsDotDot l := by
  cases l with
  | nil => rw [cdd_singleton]; rfl
  | cons b r =>
    rw [cdd_cons_cons, if_neg]
    rintro ⟨-, rfl⟩
    exact hd rfl

lemma cdd_tail (c : Char) (l : List Char)
    (h : containsDotDot (c :: l) = false) : containsDotDot l = false := by
  cases l with
  | nil => rfl
  | cons b r =>
    rw [cdd_cons_cons] at h
    by_cases hc : c = '.' ∧ b = '.'
    · rw [if_pos hc] at h
      cases h
    · rwa [if_neg hc] at h

lemma head_ne_dot_of_cdd_dot (l : List Char)
    (h : containsDotDot ('.' :: l) = false) : l.head? ≠ some '.' := by
  cases l with
  | nil => simp
  | cons b r =>
    intro hb
    rw [List.head?_cons, Option.some.injEq] at hb
    subst hb
    rw [cdd_cons_cons, if_pos ⟨rfl, rfl⟩] at h
    cases h

lemma removeDotDot_cons_cons (a b : Char) (r : List Char) :
    removeDotDot (a :: b :: r) =
      if a = '.' ∧ b = '.' then removeDotDot r else a :: removeDotDot (b :: r) := by
  by_cases h : a = '.' ∧ b = '.'
  · obtain ⟨rfl, rfl⟩ := h
    rw [if_pos ⟨rfl, rfl⟩]
    simp [removeDotDot]
  · rw [if_neg h]
    rw [removeDotDot.eq_def]
    split
    · rename_i heq
      rw [List.cons.injEq, List.cons.injEq] at heq
      exact absurd ⟨heq.1, heq.2.1⟩ h
    · rename_i heq
      rw [List.cons.injEq] at heq
      rw [← heq.1, ← heq.2]
    · rename_i heq
      exact absurd heq (by simp)

lemma removeDotDot_singleton (c : Char) : removeDotDot [c] = [c] := by
  rw [removeDotDot.eq_def]
  split
  · rename_i heq
    simp at heq
  · rename_i heq
    rw [List.cons.injEq] at heq
    rw [← heq.1, ← heq.2]
    rfl
  · rename_i heq
    exact absurd heq (by simp)

lemma removeDotDot_head : ∀ (l : List Char),
    (removeDotDot l).head? = some '.' → l.head? = some '.'
  | [] => by
    intro h
    simp [removeDotDot] at h
  | [c] => by
    intro h
    rw [removeDotDot_singleton] at h
    exact h
  | a :: b :: r => by
    intro h
    rw [removeDotDot_cons_cons] at h
    by_cases hab : a = '.' ∧ b = '.'
    · rw [List.head?_cons, hab.1]
    · rw [if_neg hab, List.head?_cons, Option.some.injEq] at h
      rw [List.head?_cons, h]

lemma cdd_removeDotDot : ∀ (l : List Char), containsDotDot (removeDotDot l) = false
  | [] => rfl
  | [c] => by
    rw [removeDotDot_singleton]
    exact cdd_singleton c
  | a :: b :: r => by
    rw [removeDotDot_cons_cons]
    by_cases hab : a = '.' ∧ b = '.'
    · rw [if_pos hab]
      exact cdd_removeDotDot r
    · rw [if_neg hab]
      have ih := cdd_removeDotDot (b :: r)
      by_cases ha : a = '.'
      · have hb : b ≠ '.' := fun hb => hab ⟨ha, hb⟩
        have hhd : (removeDotDot (b :: r)).head? ≠ some '.' := by
          intro hh
          have := removeDotDot_head (b :: r) hh
          rw [List.head?_cons, Option.some.injEq] at this
          exact hb this
        rw [ha, cdd_dot_cons_of_ne _ hhd]
        exact ih
      · rw [cdd_cons_of_ne _ _ ha]
        exact ih

lemma cdd_dropWhile (p : Char → Bool) (l : List Char)
    (h : containsDotDot l = false) : containsDotDot (l.dropWhile p) = false := by
  induction l with
  | nil => rfl
  | cons c rest ih =>
    rw [List.dropWhile_cons]
    by_cases hp : p c = true
    · rw [if_pos hp]
      exact ih (cdd_tail c rest h)
    · rw [if_neg hp]
      exact h

lemma head_dropWhile_false (p : Char → Bool) (l : List Char) (a : Char)
    (h : (l.dropWhile p).head? = some a) : p a = false := by
  induction l with
  | nil => simp [List.dropWhile] at h
  | cons c rest ih =>
    rw [List.dropWhile_cons] at h
    by_cases hp : p c = true
    · rw [if_pos hp] at h
      exact ih h
    · rw [if_neg hp] at h
      rw [List.head?_cons, Option.some.injEq] at h
      rw [← h]
      exact Bool.not_eq_true _ |>.mp hp

lemma cdd_stripDotsSepAux : ∀ (l : List Char) (n : Nat),
    containsDotDot l = false → n ≤ 1 → (n = 1 → l.head? ≠ some '.') →
    containsDotDot (stripDotsSepAux l n) = false := by
  intro l
  induction l with
  | nil =>
    intro n h hn hhd
    match n with
    | 0 => rfl
    | 1 => exact cdd_singleton '.'
  | cons c rest ih =>
    intro n h hn hhd
    rw [stripDotsSepAux]
    by_cases hc : c = '.'
    · rw [if_pos hc]
      have hn0 : n = 0 := by
        by_contra hne
        have h1 : n = 1 := by omega
        exact (hhd h1) (by rw [List.head?_cons, hc])
      subst hn0
      apply ih 1 (cdd_tail c rest h) (by omega)
      intro _
      rw [hc] at h
      exact head_ne_dot_of_cdd_dot rest h
    · rw [if_neg hc]
      by_cases hs : isSepChar c = true ∧ 0 < n
      · rw [if_pos hs]
        exact ih 0 (cdd_tail c rest h) (by omega)
          (by intro h01; exact absurd h01 (by decide))
      · rw [if_neg hs]
        have hout := ih 0 (cdd_tail c rest h) (by omega)
          (by intro h01; exact absurd h01 (by decide))
        match n with
        | 0 =>
          rw [List.replicate_zero, List.nil_append, cdd_cons_of_ne _ _ hc]
          exact hout
        | 1 =>
          show containsDotDot ('.' :: c :: stripDotsSepAux rest 0) = false
          rw [cdd_cons_cons, if_neg (fun hh => hc hh.2), cdd_cons_of_ne _ _ hc]
          exact hout

lemma cdd_stripDotsSep (l : List Char) (h : containsDotDot l = false) :
    containsDotDot (stripDotsSep l) = false :=
  cdd_stripDotsSepAux l 0 h (by omega) (by omega)

lemma stripSepDots_head : ∀ (l : List Char), containsDotDot l = false →
    (stripSepDots l).head? = some '.' → l.head? = some '.' := by
  intro l
  induction l using stripSepDots.induct with
  | case1 =>
    intro _ h
    simp [stripSepDots] at h
  | case2 c =>
    intro _ h
    simp only [stripSepDots] at h
    exact h
  | case3 c c2 rest hcond ih =>
    intro hcdd h
    simp only [stripSepDots, if_pos hcond] at h
    have hdd : containsDotDot (rest.dropWhile (fun x => x = '.')) = false :=
      cdd_dropWhile _ rest (cdd_tail _ _ (cdd_tail _ _ hcdd))
    have := ih hdd h
    rcases hh : (rest.dropWhile (fun x => x = '.')).head? with - | a
    · rw [hh] at this
      cases this
    · rw [hh] at this
      rw [Option.some.injEq] at this
      subst this
      have := head_dropWhile_false _ rest _ hh
      simp at this
  | case4 c c2 rest hcond ih =>
    intro hcdd h
    simp only [stripSepDots, if_neg hcond, List.head?_cons] at h ⊢
    exact h

lemma cdd_stripSepDots : ∀ (l : List Char), containsDotDot l = false →
    containsDotDot (stripSepDots l) = false := by
  intro l
  induction l using stripSepDots.induct with
  | case1 =>
    intro _
    simp only [stripSepDots]
    rfl
  | case2 c =>
    intro _
    simp only [stripSepDots]
    exact cdd_singleton c
  | case3 c c2 rest hcond ih =>
    intro hcdd
    simp only [stripSepDots, if_pos hcond]
    exact ih (cdd_dropWhile _ rest (cdd_tail _ _ (cdd_tail _ _ hcdd)))
  | case4 c c2 rest hcond ih =>
    intro hcdd
    simp only [stripSepDots, if_neg hcond]
    by_cases hcdot : c = '.'
    · have hc2 : c2 ≠ '.' := by
        intro h2
        rw [cdd_cons_cons, if_pos ⟨hcdot, h2⟩] at hcdd
        cases hcdd
      have hhd : (stripSepDots (c2 :: rest)).head? ≠ some '.' := by
        intro hh
        have := stripSepDots_head (c2 :: rest) (cdd_tail _ _ hcdd) hh
        rw [List.head?_cons, Option.some.injEq] at this
        exact hc2 this
      rw [hcdot, cdd_dot_cons_of_ne _ hhd]
      exact ih (cdd_tail _ _ hcdd)
    · rw [cdd_cons_of_ne _ _ hcdot]
      exact ih (cdd_tail _ _ hcdd)

lemma collapseWs_head : ∀ (l : List Char),
    (collapseWs l).head? = some '.' → l.head? = some '.' := by
  intro l
  induction l using collapseWs.induct with
  | case1 =>
    intro h
    simp [collapseWs] at h
  | case2 c rest hws ih =>
    intro h
    simp only [collapseWs, if_pos hws, List.head?_cons, Option.some.injEq] at h
    exact absurd h (by decide)
  | case3 c rest hws ih =>
    intro h
    simp only [collapseWs, if_neg hws, List.head?_cons] at h ⊢
    exact h

lemma cdd_collapseWs : ∀ (l : List Char), containsDotDot l = false →
    containsDotDot (collapseWs l) = false := by
  intro l
  induction l using collapseWs.induct with
  | case1 =>
    intro _
    simp only [collapseWs]
    rfl
  | case2 c rest hws ih =>
    intro hcdd
    simp only [collapseWs, if_pos hws]
    rw [cdd_cons_of_ne _ _ (by decide)]
    exact ih (cdd_dropWhile _ rest (cdd_tail _ _ hcdd))
  | case3 c rest hws ih =>
    intro hcdd
    simp only [collapseWs, if_neg hws]
    by_cases hcdot : c = '.'
    · have hhd : (collapseWs rest).head? ≠ some '.' := by
        intro hh
        have := collapseWs_head rest hh
        rw [hcdot] at hcdd
        exact head_ne_dot_of_cdd_dot rest hcdd this
      rw [hcdot, cdd_dot_cons_of_ne _ hhd]
      exact ih (cdd_tail _ _ hcdd)
    · rw [cdd_cons_of_ne _ _ hcdot]
      exact ih (cdd_tail _ _ hcdd)

lemma cdd_map (f : Char → Char) (hf : ∀ c, f c = '.' ↔ c = '.') :
    ∀ l, containsDotDot (l.map f) = containsDotDot l
  | [] => rfl
  | [c] => by
    rw [List.map_cons, List.map_nil, cdd_singleton, cdd_singleton]
  | a :: b :: r => by
    rw [List.map_cons, List.map_cons, cdd_cons_cons, cdd_cons_cons]
    by_cases h : a = '.' ∧ b = '.'
    · rw [if_pos h, if_pos ⟨(hf a).mpr h.1, (hf b).mpr h.2⟩]
    · rw [if_neg h, if_neg (fun hh => h ⟨(hf a).mp hh.1, (hf b).mp hh.2⟩)]
      rw [← List.map_cons]
      exact cdd_map f hf (b :: r)

lemma cdd_replaceSeps (l : List Char) :
    containsDotDot (replaceSeps l) = containsDotDot l := by
  apply cdd_map
  intro c
  by_cases hs : isSepChar c = true
  · rw [if_pos hs]
    constructor
    · intro h
      exact absurd h (by decide)
    · intro h
      subst h
      exact absurd hs (by decide)
  · rw [if_neg hs]

lemma cdd_replaceSpecials (l : List Char) :
    containsDotDot (replaceSpecials l) = containsDotDot l := by
  apply cdd_map
  intro c
  by_cases hs : isSpecialChar c = true
  · rw [if_pos hs]
    constructor
    · intro h
      exact absurd h (by decide)
    · intro h
      subst h
      exact absurd hs (by decide)
  · rw [if_neg hs]

lemma cdd_eq_true_iff : ∀ (l : List Char), containsDotDot l = true ↔
    ∃ i, i + 1 < l.length ∧ l.getD i ' ' = '.' ∧ l.getD (i + 1) ' ' = '.'
  | [] => by
    constructor
    · intro h
      cases h
    · rintro ⟨i, hi, -, -⟩
      simp at hi
  | [c] => by
    rw [cdd_singleton]
    constructor
    · intro h
      cases h
    · rintro ⟨i, hi, -, -⟩
      simp at hi
  | a :: b :: r => by
    rw [cdd_cons_cons]
    by_cases h : a = '.' ∧ b = '.'
    · rw [if_pos h]
      constructor
      · intro _
        refine ⟨0, by simp, ?_, ?_⟩
        · rw [List.getD_cons_zero, h.1]
        · rw [List.getD_cons_succ, List.getD_cons_zero, h.2]
      · intro _
        rfl
    · rw [if_neg h, cdd_eq_true_iff (b :: r)]
      constructor
      · rintro ⟨i, hi, h1, h2⟩
        refine ⟨i + 1, ?_, ?_, ?_⟩
        · simp only [List.length_cons] at hi ⊢
          omega
        · rwa [List.getD_cons_succ]
        · rwa [List.getD_cons_succ]
      · rintro ⟨i, hi, h1, h2⟩
        match i with
        | 0 =>
          rw [List.getD_cons_zero] at h1
          rw [List.getD_cons_succ, List.getD_cons_zero] at h2
          exact absurd ⟨h1, h2⟩ h
        | i + 1 =>
          refine ⟨i, ?_, ?_, ?_⟩
          · simp only [List.length_cons] at hi ⊢
            omega
          · rwa [List.getD_cons_succ] at h1
          · rwa [List.getD_cons_succ] at h2

lemma cdd_eq_false_iff (l : List Char) : containsDotDot l = false ↔
    ¬ ∃ i, i + 1 < l.length ∧ l.getD i ' ' = '.' ∧ l.getD (i + 1) ' ' = '.' := by
  rw [← cdd_eq_true_iff]
  cases h : containsDotDot l <;> simp

lemma cdd_reverse (l : List Char) (h : containsDotDot l = false) :
    containsDotDot l.reverse = false := by
  rw [cdd_eq_false_iff] at h ⊢
  rintro ⟨i, hi, h1, h2⟩
  rw [List.length_reverse] at hi
  apply h
  refine ⟨l.length - 2 - i, by omega, ?_, ?_⟩
  · have hidx : i + 1 < l.reverse.length := by
      rw [List.length_reverse]
      omega
    rw [List.getD_eq_getElem _ _ hidx, List.getElem_reverse] at h2
    rw [List.getD_eq_getElem _ _ (by omega : l.length - 2 - i < l.length)]
    convert h2 using 2
    omega
  · have hidx : i < l.reverse.length := by
      rw [List.length_reverse]
      omega
    rw [List.getD_eq_getElem _ _ hidx, List.getElem_reverse] at h1
    rw [List.getD_eq_getElem _ _ (by omega : l.length - 2 - i + 1 < l.length)]
    convert h1 using 2
    omega

lemma cdd_take (l : List Char) (n : Nat) (h : containsDotDot l = false) :
    containsDotDot (l.take n) = false := by
  rw [cdd_eq_false_iff] at h ⊢
  rintro ⟨i, hi, h1, h2⟩
  rw [List.length_take] at hi
  apply h
  have hlen : i + 1 < l.length := by omega
  refine ⟨i, hlen, ?_, ?_⟩
  · rw [List.getD_eq_getElem _ _ (by rw [List.length_take]; omega : i < (l.take n).length),
      List.getElem_take] at h1
    rwa [List.getD_eq_getElem _ _ (by omega : i < l.length)]
  · rw [List.getD_eq_getElem _ _ (by rw [List.length_take]; omega :
      i + 1 < (l.take n).length), List.getElem_take] at h2
    rwa [List.getD_eq_getElem _ _ hlen]

lemma mem_collapseWs : ∀ (l : List Char) (c : Char),
    c ∈ collapseWs l → c = '_' ∨ c ∈ l := by
  intro l
  induction l using collapseWs.induct with
  | case1 =>
    intro c h
    simp [collapseWs] at h
  | case2 c0 rest hws ih =>
    intro c h
    simp only [collapseWs, if_pos hws, List.mem_cons] at h
    rcases h with rfl | h
    · exact Or.inl rfl
    · rcases ih c h with h' | h'
      · exact Or.inl h'
      · exact Or.inr (List.mem_cons_of_mem _ ((List.dropWhile_suffix _).subset h'))
  | case3 c0 rest hws ih =>
    intro c h
    simp only [collapseWs, if_neg hws, List.mem_cons] at h
    rcases h with rfl | h
    · exact Or.inr (List.mem_cons_self _ _)
    · rcases ih c h with h' | h'
      · exact Or.inl h'
      · exact Or.inr (List.mem_cons_of_mem _ h')

lemma noSeps_replaceSeps (l : List Char) :
    ∀ c ∈ replaceSeps l, isSepChar c = false := by
  intro c hc
  rcases List.mem_map.mp hc with ⟨x, _, rfl⟩
  by_cases hs : isSepChar x = true
  · rw [if_pos hs]
    decide
  · rw [if_neg hs]
    exact Bool.not_eq_true _ |>.mp hs

lemma noSeps_replaceSpecials (l : List Char)
    (h : ∀ c ∈ l, isSepChar c = false) :
    ∀ c ∈ replaceSpecials l, isSepChar c = false := by
  intro c hc
  rcases List.mem_map.mp hc with ⟨x, hx, rfl⟩
  by_cases hs : isSpecialChar x = true
  · rw [if_pos hs]
    decide
  · rw [if_neg hs]
    exact h x hx

lemma cdd_of_no_dot (l : List Char) (h : ∀ c ∈ l, c ≠ '.') :
    containsDotDot l = false := by
  rw [cdd_eq_false_iff]
  rintro ⟨i, hi, h1, -⟩
  have hmem : l.getD i ' ' ∈ l := by
    rw [List.getD_eq_getElem _ _ (by omega : i < l.length)]
    exact List.getElem_mem _
  exact h _ hmem h1

lemma hexDigit_mem (k : Nat) : hexDigit k ∈ "0123456789abcdef".toList := by
  unfold hexDigit
  by_cases hk : k < "0123456789abcdef".toList.length
  · rw [List.getD_eq_getElem _ _ hk]
    exact List.getElem_mem _
  · rw [List.getD_eq_default _ _ (by omega)]
    decide

lemma mem_natToHexAux (n : Nat) (acc : List Char) : ∀ (c : Char),
    c ∈ natToHexAux n acc → c ∈ acc ∨ c ∈ "0123456789abcdef".toList := by
  induction n, acc using natToHexAux.induct with
  | case1 acc =>
    intro c h
    rw [natToHexAux, dif_pos rfl] at h
    exact Or.inl h
  | case2 n acc hn ih =>
    intro c h
    rw [natToHexAux, dif_neg hn] at h
    rcases ih c h with h' | h'
    · rcases List.mem_cons.mp h' with rfl | h''
      · exact Or.inr (hexDigit_mem _)
      · exact Or.inl h''
    · exact Or.inr h'

lemma mem_natToHex (n : Nat) (c : Char) (h : c ∈ natToHex n) :
    c ∈ "0123456789abcdef".toList := by
  unfold natToHex at h
  by_cases hn : n = 0
  · rw [if_pos hn] at h
    rcases List.mem_singleton.mp h with rfl
    decide
  · rw [if_neg hn] at h
    rcases mem_natToHexAux n [] c h with h' | h'
    · exact absurd h' (List.not_mem_nil c)
    · exact h'

lemma jsCharCode_bounds (c : Char) : 0 ≤ jsCharCode c ∧ jsCharCode c < 2 ^ 21 := by
  refine ⟨Int.ofNat_nonneg _, ?_⟩
  have hv : c.toNat < 1114112 := by
    rcases c.valid with h | ⟨h1, h2⟩
    · have : c.toNat < 55296 := h
      omega
    · exact h2
  have : (c.toNat : ℤ) < 1114112 := by exact_mod_cast hv
  unfold jsCharCode
  omega

lemma abs_toInt32_le (n : ℤ) : |toInt32 n| ≤ 2 ^ 31 := by
  unfold toInt32
  have h1 : 0 ≤ (n + 2 ^ 31) % 2 ^ 32 := Int.emod_nonneg _ (by norm_num)
  have h2 : (n + 2 ^ 31) % 2 ^ 32 < 2 ^ 32 := Int.emod_lt_of_pos _ (by norm_num)
  rw [abs_le]
  constructor <;> omega

lemma abs_hashStep_le (h : ℤ) (c : Char) :
    |hashStep h c| ≤ |h| + 2 ^ 31 + 2 ^ 21 := by
  unfold hashStep
  rcases jsCharCode_bounds c with ⟨hc1, hc2⟩
  have ht := abs_toInt32_le (toInt32 h * 32)
  calc |toInt32 (toInt32 h * 32) - h + jsCharCode c|
      ≤ |toInt32 (toInt32 h * 32) - h| + |jsCharCode c| := abs_add _ _
    _ ≤ |toInt32 (toInt32 h * 32)| + |h| + |jsCharCode c| := by
        have := abs_sub (toInt32 (toInt32 h * 32)) h
        linarith
    _ ≤ |h| + 2 ^ 31 + 2 ^ 21 := by
        rw [abs_of_nonneg hc1]
        omega

lemma abs_hashCode_foldl_le : ∀ (l : List Char) (h : ℤ),
    |l.foldl hashStep h| ≤ |h| + (l.length : ℤ) * (2 ^ 31 + 2 ^ 21) := by
  intro l
  induction l with
  | nil =>
    intro h
    simp
  | cons c rest ih =>
    intro h
    rw [List.foldl_cons]
    calc |rest.foldl hashStep (hashStep h c)|
        ≤ |hashStep h c| + (rest.length : ℤ) * (2 ^ 31 + 2 ^ 21) := ih _
      _ ≤ (|h| + 2 ^ 31 + 2 ^ 21) + (rest.length : ℤ) * (2 ^ 31 + 2 ^ 21) := by
          linarith [abs_hashStep_le h c]
      _ = |h| + ((rest.length : ℤ) + 1) * (2 ^ 31 + 2 ^ 21) := by ring
      _ = |h| + ((c :: rest).length : ℤ) * (2 ^ 31 + 2 ^ 21) := by
          rw [List.length_cons]
          push_cast
          ring

lemma hashCode_natAbs_lt (l : List Char) (hlen : l.length < 2 ^ 53) :
    (hashCode l).natAbs < 16 ^ 22 := by
  have h := abs_hashCode_foldl_le l 0
  rw [abs_zero, zero_add] at h
  have hcast : (l.length : ℤ) < 2 ^ 53 := by exact_mod_cast hlen
  have habs : |hashCode l| < 2 ^ 53 * (2 ^ 31 + 2 ^ 21) := by
    calc |hashCode l| ≤ (l.length : ℤ) * (2 ^ 31 + 2 ^ 21) := h
      _ < 2 ^ 53 * (2 ^ 31 + 2 ^ 21) := by
          apply mul_lt_mul_of_pos_right hcast
          norm_num
  have : |hashCode l| < 16 ^ 22 := lt_of_lt_of_le habs (by norm_num)
  rw [Int.abs_eq_natAbs] at this
  exact_mod_cast this

lemma natToHexAux_length_le : ∀ (k n : Nat) (acc : List Char), n < 16 ^ k →
    (natToHexAux n acc).length ≤ k + acc.length := by
  intro k
  induction k with
  | zero =>
    intro n acc h
    have hn : n = 0 := by omega
    rw [natToHexAux, dif_pos hn]
    omega
  | succ k ih =>
    intro n acc h
    rw [natToHexAux]
    by_cases hn : n = 0
    · rw [dif_pos hn]
      omega
    · rw [dif_neg hn]
      have hdiv : n / 16 < 16 ^ k := by
        apply Nat.div_lt_of_lt_mul
        rw [← pow_succ']
        exact h
      have := ih (n / 16) (hexDigit (n % 16) :: acc) hdiv
      simp only [List.length_cons] at this
      omega

lemma natToHex_length_le (n : Nat) (h : n < 16 ^ 22) : (natToHex n).length ≤ 22 := by
  unfold natToHex
  by_cases hn : n = 0
  · rw [if_pos hn]
    norm_num
  · rw [if_neg hn]
    have := natToHexAux_length_le 22 n [] h
    simpa using this

/-- **C7** — `getFileNameForId` is filesystem-safe: for every non-empty
id (of ECMAScript-representable length, below `2 ^ 53` characters), the
produced filename is `base ++ ".json"` where the base is non-empty,
contains no path separator and no `..` substring, and is at most
`MAX_FILENAME_LENGTH = 100` characters; when the sanitization chain
yields the empty string the base is the hash-derived fallback
`id_<hex>`. -/
theorem getFileNameForId_safe (id : List Char) (hne : id ≠ [])
    (hlen : id.length < 2 ^ 53) :
    ∃ base, getFileNameForId id = some (base ++ ".json".toList) ∧
      base ≠ [] ∧
      containsDotDot base = false ∧
      (∀ c ∈ base, isSepChar c = false) ∧
      base.length ≤ MAX_FILENAME_LENGTH ∧
      (sanitizedBase id = [] →
        base = "id_".toList ++ natToHex (hashCode id).natAbs) := by
  unfold getFileNameForId
  rw [if_neg hne]
  dsimp only
  by_cases hempty : sanitizedBase id = []
  · rw [if_pos hempty]
    have hfb : ∀ c ∈ "id_".toList ++ natToHex (hashCode id).natAbs,
        c = 'i' ∨ c = 'd' ∨ c = '_' ∨ c ∈ "0123456789abcdef".toList := by
      intro c hc
      rcases List.mem_append.mp hc with hc' | hc'
      · have : c = 'i' ∨ c = 'd' ∨ c = '_' := by
          rcases List.mem_cons.mp hc' with rfl | hc''
          · exact Or.inl rfl
          rcases List.mem_cons.mp hc'' with rfl | hc'''
          · exact Or.inr (Or.inl rfl)
          rcases List.mem_cons.mp hc''' with rfl | hc''''
          · exact Or.inr (Or.inr rfl)
          · exact absurd hc'''' (List.not_mem_nil c)
        tauto
      · exact Or.inr (Or.inr (Or.inr (mem_natToHex _ c hc')))
    refine ⟨_, rfl, ?_, ?_, ?_, ?_, fun _ => rfl⟩
    · simp
    · apply cdd_of_no_dot
      intro c hc
      have hhexdot : ∀ x ∈ "0123456789abcdef".toList, x ≠ '.' := by decide
      rcases hfb c hc with rfl | rfl | rfl | hhex
      · decide
      · decide
      · decide
      · exact hhexdot c hhex
    · intro c hc
      have hhexsep : ∀ x ∈ "0123456789abcdef".toList, isSepChar x = false := by decide
      rcases hfb c hc with rfl | rfl | rfl | hhex
      · decide
      · decide
      · decide
      · exact hhexsep c hhex
    · rw [List.length_append]
      have := natToHex_length_le (hashCode id).natAbs (hashCode_natAbs_lt id hlen)
      have hidlen : ("id_".toList).length = 3 := by decide
      unfold MAX_FILENAME_LENGTH
      omega
  · rw [if_neg hempty]
    have hcdd : containsDotDot (sanitizedBase id) = false := by
      unfold sanitizedBase
      apply cdd_take
      unfold dropTrailingDots
      apply cdd_reverse
      apply cdd_dropWhile
      apply cdd_reverse
      unfold dropLeadingDots
      apply cdd_dropWhile
      apply cdd_collapseWs
      rw [cdd_replaceSpecials, cdd_replaceSeps]
      apply cdd_stripSepDots
      apply cdd_stripDotsSep
      exact cdd_removeDotDot id
    have hsep : ∀ c ∈ sanitizedBase id, isSepChar c = false := by
      unfold sanitizedBase dropTrailingDots dropLeadingDots
      intro c hc
      have hc1 := List.take_subset _ _ hc
      rw [List.mem_reverse] at hc1
      have hc2 := (List.dropWhile_suffix _).subset hc1
      rw [List.mem_reverse] at hc2
      have hc3 := (List.dropWhile_suffix _).subset hc2
      rcases mem_collapseWs _ c hc3 with rfl | hc4
      · decide
      · exact noSeps_replaceSpecials _ (noSeps_replaceSeps _) c hc4
    refine ⟨sanitizedBase id, rfl, hempty, hcdd, hsep, ?_,
      fun h => absurd h hempty⟩
    unfold sanitizedBase
    rw [List.length_take]
    exact min_le_left _ _

/-- Witness for `getFileNameForId_safe` at the path-traversal id
`../../etc/passwd`. -/
theorem getFileNameForId_safe_witness :
    ("../../etc/passwd".toList ≠ []) ∧
    ∃ base, getFileNameForId "../../etc/passwd".toList =
        some (base ++ ".json".toList) ∧
      base ≠ [] ∧
      containsDotDot base = false ∧
      (∀ c ∈ base, isSepChar c = false) ∧
      base.length ≤ MAX_FILENAME_LENGTH ∧
      (sanitizedBase "../../etc/passwd".toList = [] →
        base = "id_".toList ++ natToHex (hashCode "../../etc/passwd".toList).natAbs) :=
  ⟨by decide, getFileNameForId_safe "../../etc/passwd".toList (by decide) (by decide)⟩

/-! ### C4 — the Note Indexer's debounce queue (`NoteIndexer.ts`) -/

/-- `NoteIndexer.MAX_PENDING_UPDATES`. -/
def MAX_PENDING_UPDATES : Nat := 50

/-- `NoteIndexer.MAX_RETRY_COUNT`. -/
def MAX_RETRY_COUNT : Nat := 3

/-- The queue state of `NoteIndexer`: `pendingUpdates` is the
insertion-ordered key set of the path → timer map (the timer handles
play no role in the queue-bound claims; an entry's presence means its
timer is armed, eviction/cancellation clears the timer and removes the
entry), `droppedFiles` the insertion-ordered path → retryCount map. -/
structure IndexerState where
  pendingUpdates : List String
  droppedFiles : List (String × Nat)
  indexingPaths : List String
  isDestroyed : Bool
deriving DecidableEq, Repr

/-- The indexer as constructed. -/
def initialIndexerState : IndexerState :=
  { pendingUpdates := [], droppedFiles := [], indexingPaths := [], isDestroyed := false }

/-- `droppedFiles.get(path)`. -/
def dmGet (m : List (String × Nat)) (p : String) : Option Nat :=
  (m.find? (fun e => e.1 = p)).map (fun e => e.2)

/-- `droppedFiles.delete(path)`. -/
def dmDelete (m : List (String × Nat)) (p : String) : List (String × Nat) :=
  m.filter (fun e => e.1 ≠ p)

/-- `droppedFiles.set(path, v)`: replace in place or append. -/
def dmSet (m : List (String × Nat)) (p : String) (v : Nat) : List (String × Nat) :=
  if m.any (fun e => e.1 = p) then
    m.map (fun e => if e.1 = p then (p, v) else e)
  else
    m ++ [(p, v)]

/-- `cancelPendingUpdate` (NoteIndexer.ts:139-145): clear the timer and
drop the entry. -/
def cancelPendingUpdate (st : IndexerState) (path : String) : IndexerState :=
  { st with pendingUpdates := setRemove st.pendingUpdates path }

/-- `debouncedIndex` (NoteIndexer.ts:147-218), the synchronous part:
cancel any pending entry for the path, clear it from the dropped table,
evict the oldest entry when the queue is full (recording it in the
dropped table with an incremented retry count, unless the count has
reached `MAX_RETRY_COUNT`), then arm a new timer for the path. -/
def debouncedIndex (st : IndexerState) (path : String) : IndexerState :=
  let st1 := { st with pendingUpdates := setRemove st.pendingUpdates path }
  let st2 := { st1 with droppedFiles := dmDelete st1.droppedFiles path }
  let st3 :=
    if MAX_PENDING_UPDATES ≤ st2.pendingUpdates.length then
      match st2.pendingUpdates with
      | [] => st2
      | droppedPath :: restPending =>
        let currentRetries := (dmGet st2.droppedFiles droppedPath).getD 0
        if currentRetries < MAX_RETRY_COUNT then
          { st2 with pendingUpdates := restPending,
                     droppedFiles := dmSet st2.droppedFiles droppedPath (currentRetries + 1) }
        else
          { st2 with pendingUpdates := restPending }
    else st2
  { st3 with pendingUpdates := setAdd st3.pendingUpdates path }

/-- `retryDroppedFiles` (NoteIndexer.ts:224-250): when there is free
queue capacity, take that many paths from the dropped table, remove
each, and reschedule those whose file still exists in scope (the
`vault.getAbstractFileByPath` + `isTargetFile` test is the
`stillThere` oracle). -/
def retryStep (stillThere : String → Bool) (s : IndexerState) (p : String) :
    IndexerState :=
  if s.isDestroyed = true then s
  else
    let s1 := { s with droppedFiles := dmDelete s.droppedFiles p }
    if stillThere p then debouncedIndex s1 p else s1

def retryDroppedFiles (st : IndexerState) (stillThere : String → Bool) : IndexerState :=
  if st.isDestroyed = true ∨ st.droppedFiles.length = 0 then st
  else
    let availableSlots := MAX_PENDING_UPDATES - st.pendingUpdates.length
    if availableSlots = 0 then st
    else
      let filesToRetry := (st.droppedFiles.map (fun e => e.1)).take availableSlots
      filesToRetry.foldl (retryStep stillThere) st

/-- The debounce-timer callback (NoteIndexer.ts:175-215), up to the
start of the async `indexFile` work: a cancelled timer never fires
(cancellation removed the entry), a firing timer removes its entry,
bails if destroyed, reschedules if the path is currently being indexed,
and otherwise marks the path as being indexed. -/
def timerFired (st : IndexerState) (path : String) : IndexerState :=
  if path ∈ st.pendingUpdates then
    let st1 := { st with pendingUpdates := setRemove st.pendingUpdates path }
    if st1.isDestroyed = true then st1
    else if path ∈ st1.indexingPaths then debouncedIndex st1 path
    else { st1 with indexingPaths := setAdd st1.indexingPaths path }
  else st

/-- The `finally` block of the callback (NoteIndexer.ts:207-213): the
path leaves `indexingPaths` and dropped files are retried. -/
def indexFinished (st : IndexerState) (path : String)
    (stillThere : String → Bool) : IndexerState :=
  retryDroppedFiles { st with indexingPaths := setRemove st.indexingPaths path } stillThere

/-- `destroy` (NoteIndexer.ts:88-105). -/
def destroy (st : IndexerState) : IndexerState :=
  { pendingUpdates := [], droppedFiles := [], indexingPaths := [], isDestroyed := true }

/-- The folder-change branch of `updateSettings` (NoteIndexer.ts:46-63). -/
def settingsChanged (st : IndexerState) : IndexerState :=
  { st with pendingUpdates := [], droppedFiles := [], indexingPaths := [] }

/-- The externally triggered events of the indexer: create/modify of a
target file, delete, rename, a debounce timer firing, an index
operation completing, `destroy`, and a folder change. -/
inductive IxEvent where
  | fileChanged (path : String)
  | fileDeleted (path : String)
  | renamed (oldPath newPath : String) (isTarget : Bool)
  | timer (path : String)
  | finished (path : String) (stillThere : String → Bool)
  | destroyed
  | foldersChanged

/-- One event step of the indexer (`handleFileChange`, `handleRename`,
the timer callback, `destroy`, `updateSettings`). -/
def ixStep (st : IndexerState) : IxEvent → IndexerState
  | .fileChanged path => debouncedIndex st path
  | .fileDeleted path => cancelPendingUpdate st path
  | .renamed oldPath newPath isTarget =>
    let st1 := cancelPendingUpdate st oldPath
    if isTarget then debouncedIndex st1 newPath else st1
  | .timer path => timerFired st path
  | .finished path stillThere => indexFinished st path stillThere
  | .destroyed => destroy st
  | .foldersChanged => settingsChanged st

/-- The state after a sequence of events on a fresh indexer. -/
def ixRun (events : List IxEvent) : IndexerState :=
  events.foldl ixStep initialIndexerState

/-- The queue invariant: the pending map is within its bound and
duplicate-free, the dropped table has one entry per path, no path is
simultaneously pending and dropped, and every recorded retry count is
at most 1 (the table entry for a path is deleted whenever the path is
rescheduled, so a count can only ever be set to `(get ?? 0) + 1 = 1`;
in particular counts never reach `MAX_RETRY_COUNT`). -/
def IndexerInv (st : IndexerState) : Prop :=
  st.pendingUpdates.length ≤ MAX_PENDING_UPDATES ∧
  st.pendingUpdates.Nodup ∧
  (st.droppedFiles.map (fun e => e.1)).Nodup ∧
  (∀ p ∈ st.pendingUpdates, dmGet st.droppedFiles p = none) ∧
  (∀ e ∈ st.droppedFiles, e.2 ≤ 1)

instance (st : IndexerState) : Decidable (IndexerInv st) := by
  unfold IndexerInv
  infer_instance

lemma setRemove_not_mem (l : List String) (p : String) : p ∉ setRemove l p := by
  intro h
  exact (mem_setRemove.mp h).2 rfl

lemma setRemove_eq_of_not_mem (l : List String) (p : String) (h : p ∉ l) :
    setRemove l p = l := by
  unfold setRemove
  apply List.filter_eq_self.mpr
  intro a ha
  simp only [decide_eq_true_eq]
  intro rfl'
  exact h (rfl' ▸ ha)

lemma setRemove_length_le (l : List String) (p : String) :
    (setRemove l p).length ≤ l.length :=
  List.length_filter_le _ _

lemma setRemove_nodup (l : List String) (p : String) (h : l.Nodup) :
    (setRemove l p).Nodup :=
  h.filter _

lemma setAdd_nodup (l : List String) (p : String) (h : l.Nodup) :
    (setAdd l p).Nodup := by
  unfold setAdd
  by_cases hp : p ∈ l
  · rwa [if_pos hp]
  · rw [if_neg hp, List.nodup_append]
    exact ⟨h, List.nodup_singleton p, fun a ha hb => hp ((List.mem_singleton.mp hb) ▸ ha)⟩

lemma setAdd_eq_append (l : List String) (p : String) (h : p ∉ l) :
    setAdd l p = l ++ [p] := by
  unfold setAdd
  rw [if_neg h]

lemma setAdd_length_le (l : List String) (p : String) :
    (setAdd l p).length ≤ l.length + 1 := by
  unfold setAdd
  by_cases hp : p ∈ l
  · rw [if_pos hp]
    omega
  · rw [if_neg hp, List.length_append]
    simp

lemma dmGet_dmDelete_self (m : List (String × Nat)) (p : String) :
    dmGet (dmDelete m p) p = none := by
  unfold dmGet dmDelete
  rw [List.find?_eq_none.mpr]
  · rfl
  · intro e he
    have := (List.mem_filter.mp he).2
    simp only [decide_eq_true_eq] at this ⊢
    exact this

lemma dmGet_dmDelete_of_none (m : List (String × Nat)) (p q : String)
    (h : dmGet m p = none) : dmGet (dmDelete m q) p = none := by
  unfold dmGet at h ⊢
  unfold dmDelete
  rw [Option.map_eq_none'] at h ⊢
  rw [List.find?_eq_none] at h ⊢
  intro e he
  exact h e (List.mem_filter.mp he).1

lemma dmGet_none_iff (m : List (String × Nat)) (p : String) :
    dmGet m p = none ↔ p ∉ m.map (fun e => e.1) := by
  unfold dmGet
  rw [Option.map_eq_none', List.find?_eq_none]
  constructor
  · intro h hp
    rcases List.mem_map.mp hp with ⟨e, he, hep⟩
    have := h e he
    simp only [decide_eq_true_eq] at this
    exact this hep
  · intro h e he
    simp only [decide_eq_true_eq]
    intro hep
    exact h (List.mem_map.mpr ⟨e, he, hep⟩)

lemma dmDelete_keys_sublist (m : List (String × Nat)) (p : String) :
    ((dmDelete m p).map (fun e => e.1)).Sublist (m.map (fun e => e.1)) :=
  (List.filter_sublist m).map _

lemma dmDelete_subset (m : List (String × Nat)) (p : String) :
    ∀ e ∈ dmDelete m p, e ∈ m := by
  intro e he
  exact (List.mem_filter.mp he).1

lemma dmSet_keys_of_none (m : List (String × Nat)) (p : String) (v : Nat)
    (h : dmGet m p = none) :
    (dmSet m p v).map (fun e => e.1) = m.map (fun e => e.1) ++ [p] := by
  unfold dmSet
  rw [if_neg]
  · rw [List.map_append]
    rfl
  · intro hany
    rcases List.any_eq_true.mp hany with ⟨e, he, hep⟩
    simp only [decide_eq_true_eq] at hep
    exact (dmGet_none_iff m p).mp h (List.mem_map.mpr ⟨e, he, hep⟩)

lemma dmGet_dmSet_self (m : List (String × Nat)) (p : String) (v : Nat)
    (h : dmGet m p = none) : dmGet (dmSet m p v) p = some v := by
  unfold dmSet
  rw [if_neg]
  · unfold dmGet
    have hnone : List.find? (fun e => decide (e.1 = p)) m = none := by
      rw [List.find?_eq_none]
      intro e he
      have hp := (dmGet_none_iff m p).mp h
      simp only [decide_eq_true_eq]
      intro hep
      exact hp (List.mem_map.mpr ⟨e, he, hep⟩)
    rw [List.find?_append, hnone]
    simp [List.find?_cons]
  · intro hany
    rcases List.any_eq_true.mp hany with ⟨e, he, hep⟩
    simp only [decide_eq_true_eq] at hep
    exact (dmGet_none_iff m p).mp h (List.mem_map.mpr ⟨e, he, hep⟩)

lemma find?_map_replace_ne (m : List (String × Nat)) (p q : String) (v : Nat)
    (hne : q ≠ p) :
    List.find? (fun e => decide (e.1 = q))
        (m.map (fun e => if e.1 = p then (p, v) else e)) =
      List.find? (fun e => decide (e.1 = q)) m := by
  induction m with
  | nil => rfl
  | cons e rest ih =>
    rw [List.map_cons, List.find?_cons, List.find?_cons]
    by_cases hep : e.1 = p
    · rw [if_pos hep]
      have h1 : (decide ((p, v).1 = q)) = false := by
        simp [Ne.symm hne]
      have h2 : (decide (e.1 = q)) = false := by
        simp [hep, Ne.symm hne]
      rw [h1, h2]
      exact ih
    · rw [if_neg hep]
      by_cases heq : e.1 = q
      · simp [heq]
      · have h2 : (decide (e.1 = q)) = false := by simp [heq]
        rw [h2]
        exact ih

lemma dmGet_dmSet_ne (m : List (String × Nat)) (p q : String) (v : Nat)
    (hne : q ≠ p) : dmGet (dmSet m p v) q = dmGet m q := by
  unfold dmSet
  by_cases hany : m.any (fun e => e.1 = p) = true
  · rw [if_pos hany]
    unfold dmGet
    rw [find?_map_replace_ne m p q v hne]
  · rw [if_neg hany]
    unfold dmGet
    rw [List.find?_append]
    have hsing : List.find? (fun e => decide (e.1 = q)) [(p, v)] = none := by
      simp [Ne.symm hne]
    rw [hsing]
    simp

lemma dmSet_counts (m : List (String × Nat)) (p : String) (v : Nat) (bound : Nat)
    (hm : ∀ e ∈ m, e.2 ≤ bound) (hv : v ≤ bound) :
    ∀ e ∈ dmSet m p v, e.2 ≤ bound := by
  unfold dmSet
  by_cases hany : m.any (fun e => e.1 = p) = true
  · rw [if_pos hany]
    intro e he
    rcases List.mem_map.mp he with ⟨x, hx, rfl⟩
    by_cases hxp : x.1 = p
    · rw [if_pos hxp]
      exact hv
    · rw [if_neg hxp]
      exact hm x hx
  · rw [if_neg hany]
    intro e he
    rcases List.mem_append.mp he with he' | he'
    · exact hm e he'
    · rcases List.mem_singleton.mp he' with rfl
      exact hv

lemma debouncedIndex_nonfull (st : IndexerState) (path : String)
    (h : ¬ MAX_PENDING_UPDATES ≤ (setRemove st.pendingUpdates path).length) :
    debouncedIndex st path =
      { pendingUpdates := setAdd (setRemove st.pendingUpdates path) path,
        droppedFiles := dmDelete st.droppedFiles path,
        indexingPaths := st.indexingPaths, isDestroyed := st.isDestroyed } := by
  unfold debouncedIndex
  dsimp only
  rw [if_neg h]

lemma debouncedIndex_full_keep (st : IndexerState) (path oldest : String)
    (rest : List String)
    (hP : setRemove st.pendingUpdates path = oldest :: rest)
    (hfull : MAX_PENDING_UPDATES ≤ (oldest :: rest).length)
    (hlow : (dmGet (dmDelete st.droppedFiles path) oldest).getD 0 < MAX_RETRY_COUNT) :
    debouncedIndex st path =
      { pendingUpdates := setAdd rest path,
        droppedFiles := dmSet (dmDelete st.droppedFiles path) oldest
          ((dmGet (dmDelete st.droppedFiles path) oldest).getD 0 + 1),
        indexingPaths := st.indexingPaths, isDestroyed := st.isDestroyed } := by
  unfold debouncedIndex
  dsimp only
  rw [hP, if_pos hfull]
  simp only [if_pos hlow]

lemma inv_debouncedIndex (st : IndexerState) (path : String)
    (h : IndexerInv st) : IndexerInv (debouncedIndex st path) := by
  obtain ⟨h1, h2, h3, h4, h5⟩ := h
  have hPlen : (setRemove st.pendingUpdates path).length ≤ MAX_PENDING_UPDATES :=
    le_trans (setRemove_length_le _ _) h1
  have hPnd : (setRemove st.pendingUpdates path).Nodup := setRemove_nodup _ _ h2
  have hPpath : path ∉ setRemove st.pendingUpdates path := setRemove_not_mem _ _
  have hDkeys : ((dmDelete st.droppedFiles path).map (fun e => e.1)).Nodup :=
    (dmDelete_keys_sublist _ _).nodup h3
  have hDnone : ∀ p ∈ setRemove st.pendingUpdates path,
      dmGet (dmDelete st.droppedFiles path) p = none := fun p hp =>
    dmGet_dmDelete_of_none _ _ _ (h4 p (mem_setRemove.mp hp).1)
  have hDpath : dmGet (dmDelete st.droppedFiles path) path = none :=
    dmGet_dmDelete_self _ _
  have hDcnt : ∀ e ∈ dmDelete st.droppedFiles path, e.2 ≤ 1 := fun e he =>
    h5 e (dmDelete_subset _ _ e he)
  by_cases hfull : MAX_PENDING_UPDATES ≤ (setRemove st.pendingUpdates path).length
  · rcases hPeq : setRemove st.pendingUpdates path with - | ⟨oldest, rest⟩
    · rw [hPeq] at hfull
      simp [MAX_PENDING_UPDATES] at hfull
    · rw [hPeq] at hfull hPlen hPnd hPpath hDnone
      have hold : dmGet (dmDelete st.droppedFiles path) oldest = none :=
        hDnone oldest (List.mem_cons_self _ _)
      have hlow : (dmGet (dmDelete st.droppedFiles path) oldest).getD 0 <
          MAX_RETRY_COUNT := by
        rw [hold]
        norm_num [MAX_RETRY_COUNT]
      have hpnr : path ∉ rest := fun hm => hPpath (List.mem_cons_of_mem _ hm)
      have hpno : path ≠ oldest := fun he => hPpath (he ▸ List.mem_cons_self _ _)
      have honr : oldest ∉ rest := (List.nodup_cons.mp hPnd).1
      have hrnd : rest.Nodup := (List.nodup_cons.mp hPnd).2
      rw [debouncedIndex_full_keep st path oldest rest hPeq hfull hlow]
      refine ⟨?_, ?_, ?_, ?_, ?_⟩
      · show (setAdd rest path).length ≤ MAX_PENDING_UPDATES
        have := setAdd_length_le rest path
        simp only [List.length_cons] at hPlen
        omega
      · show (setAdd rest path).Nodup
        exact setAdd_nodup rest path hrnd
      · show ((dmSet (dmDelete st.droppedFiles path) oldest
            ((dmGet (dmDelete st.droppedFiles path) oldest).getD 0 + 1)).map
            (fun e => e.1)).Nodup
        rw [dmSet_keys_of_none _ _ _ hold, List.nodup_append]
        refine ⟨hDkeys, List.nodup_singleton _, ?_⟩
        intro a ha hb
        rcases List.mem_singleton.mp hb with rfl
        exact (dmGet_none_iff _ _).mp hold ha
      · show ∀ p ∈ setAdd rest path,
          dmGet (dmSet (dmDelete st.droppedFiles path) oldest
            ((dmGet (dmDelete st.droppedFiles path) oldest).getD 0 + 1)) p = none
        intro p hp
        rcases mem_setAdd.mp hp with hp' | rfl
        · have hne : p ≠ oldest := fun he => honr (he ▸ hp')
          rw [dmGet_dmSet_ne _ _ _ _ hne]
          exact hDnone p (List.mem_cons_of_mem _ hp')
        · rw [dmGet_dmSet_ne _ _ _ _ hpno]
          exact hDpath
      · show ∀ e ∈ dmSet (dmDelete st.droppedFiles path) oldest
            ((dmGet (dmDelete st.droppedFiles path) oldest).getD 0 + 1), e.2 ≤ 1
        apply dmSet_counts _ _ _ _ hDcnt
        rw [hold]
        simp
  · rw [debouncedIndex_nonfull st path hfull]
    refine ⟨?_, ?_, ?_, ?_, ?_⟩
    · show (setAdd (setRemove st.pendingUpdates path) path).length ≤ MAX_PENDING_UPDATES
      have := setAdd_length_le (setRemove st.pendingUpdates path) path
      omega
    · show (setAdd (setRemove st.pendingUpdates path) path).Nodup
      exact setAdd_nodup _ _ hPnd
    · exact hDkeys
    · show ∀ p ∈ setAdd (setRemove st.pendingUpdates path) path,
        dmGet (dmDelete st.droppedFiles path) p = none
      intro p hp
      rcases mem_setAdd.mp hp with hp' | rfl
      · exact hDnone p hp'
      · exact hDpath
    · exact hDcnt

lemma inv_retryStep (stillThere : String → Bool) (s : IndexerState) (p : String)
    (h : IndexerInv s) : IndexerInv (retryStep stillThere s p) := by
  obtain ⟨h1, h2, h3, h4, h5⟩ := h
  unfold retryStep
  by_cases hd : s.isDestroyed = true
  · rw [if_pos hd]
    exact ⟨h1, h2, h3, h4, h5⟩
  · rw [if_neg hd]
    dsimp only
    have hinv1 : IndexerInv { s with droppedFiles := dmDelete s.droppedFiles p } := by
      refine ⟨h1, h2, (dmDelete_keys_sublist _ _).nodup h3, ?_, ?_⟩
      · intro q hq
        exact dmGet_dmDelete_of_none _ _ _ (h4 q hq)
      · intro e he
        exact h5 e (dmDelete_subset _ _ e he)
    by_cases ht : stillThere p = true
    · rw [if_pos ht]
      exact inv_debouncedIndex _ _ hinv1
    · rw [if_neg ht]
      exact hinv1

lemma inv_retryDroppedFiles (st : IndexerState) (stillThere : String → Bool)
    (h : IndexerInv st) : IndexerInv (retryDroppedFiles st stillThere) := by
  unfold retryDroppedFiles
  by_cases h0 : st.isDestroyed = true ∨ st.droppedFiles.length = 0
  · rw [if_pos h0]
    exact h
  · rw [if_neg h0]
    dsimp only
    by_cases h1 : MAX_PENDING_UPDATES - st.pendingUpdates.length = 0
    · rw [if_pos h1]
      exact h
    · rw [if_neg h1]
      have hfold : ∀ (ps : List String) (s : IndexerState), IndexerInv s →
          IndexerInv (ps.foldl (retryStep stillThere) s) := by
        intro ps
        induction ps with
        | nil => exact fun s hs => hs
        | cons q qs ih =>
          intro s hs
          rw [List.foldl_cons]
          exact ih _ (inv_retryStep stillThere s q hs)
      exact hfold _ st h

lemma inv_ixStep (st : IndexerState) (e : IxEvent)
    (h : IndexerInv st) : IndexerInv (ixStep st e) := by
  have hcancel : ∀ (s : IndexerState) (p : String), IndexerInv s →
      IndexerInv (cancelPendingUpdate s p) := by
    intro s p ⟨h1, h2, h3, h4, h5⟩
    exact ⟨le_trans (setRemove_length_le _ _) h1, setRemove_nodup _ _ h2, h3,
      fun q hq => h4 q (mem_setRemove.mp hq).1, h5⟩
  cases e with
  | fileChanged path => exact inv_debouncedIndex st path h
  | fileDeleted path => exact hcancel st path h
  | renamed oldPath newPath isTarget =>
    show IndexerInv (let st1 := cancelPendingUpdate st oldPath;
      if isTarget then debouncedIndex st1 newPath else st1)
    dsimp only
    by_cases ht : isTarget = true
    · rw [if_pos ht]
      exact inv_debouncedIndex _ _ (hcancel st oldPath h)
    · rw [if_neg ht]
      exact hcancel st oldPath h
  | timer path =>
    show IndexerInv (timerFired st path)
    unfold timerFired
    obtain ⟨h1, h2, h3, h4, h5⟩ := h
    by_cases hm : path ∈ st.pendingUpdates
    · rw [if_pos hm]
      dsimp only
      have hinv1 : IndexerInv { st with pendingUpdates := setRemove st.pendingUpdates path } :=
        ⟨le_trans (setRemove_length_le _ _) h1, setRemove_nodup _ _ h2, h3,
          fun q hq => h4 q (mem_setRemove.mp hq).1, h5⟩
      by_cases hd : st.isDestroyed = true
      · rw [if_pos hd]
        exact hinv1
      · rw [if_neg hd]
        by_cases hi : path ∈ st.indexingPaths
        · rw [if_pos hi]
          exact inv_debouncedIndex _ _ hinv1
        · rw [if_neg hi]
          exact hinv1
    · rw [if_neg hm]
      exact ⟨h1, h2, h3, h4, h5⟩
  | finished path stillThere =>
    show IndexerInv (indexFinished st path stillThere)
    unfold indexFinished
    apply inv_retryDroppedFiles
    obtain ⟨h1, h2, h3, h4, h5⟩ := h
    exact ⟨h1, h2, h3, h4, h5⟩
  | destroyed =>
    refine ⟨?_, ?_, ?_, ?_, ?_⟩ <;> simp [ixStep, destroy, MAX_PENDING_UPDATES]
  | foldersChanged =>
    refine ⟨?_, ?_, ?_, ?_, ?_⟩ <;> simp [ixStep, settingsChanged, MAX_PENDING_UPDATES]

lemma inv_ixRun (events : List IxEvent) : IndexerInv (ixRun events) := by
  unfold ixRun
  have hgen : ∀ (evs : List IxEvent) (s : IndexerState), IndexerInv s →
      IndexerInv (evs.foldl ixStep s) := by
    intro evs
    induction evs with
    | nil => exact fun s hs => hs
    | cons e rest ih =>
      intro s hs
      rw [List.foldl_cons]
      exact ih _ (inv_ixStep s e hs)
  exact hgen events initialIndexerState (by decide)

/-- **C4** — the Note Indexer's debounce queue is bounded: after any
sequence of file-change / timer / retry / destroy / settings events
from a fresh indexer, `pendingUpdates` holds at most
`MAX_PENDING_UPDATES = 50` entries, the dropped-files table has at most
one entry per path, and every recorded retry count is at most
`MAX_RETRY_COUNT = 3` (in fact at most 1, since rescheduling a path
deletes its table entry first, so the count-has-reached-`MAX_RETRY_COUNT`
discard branch is unreachable from the initial state).  Moreover,
scheduling a new path into a full queue evicts the oldest pending entry
(its timer is cleared with it) and records it in the dropped table with
an incremented retry count. -/
theorem noteIndexer_queue_bound (events : List IxEvent) :
    (ixRun events).pendingUpdates.length ≤ MAX_PENDING_UPDATES ∧
    ((ixRun events).droppedFiles.map (fun e => e.1)).Nodup ∧
    (∀ e ∈ (ixRun events).droppedFiles, e.2 ≤ MAX_RETRY_COUNT) ∧
    (∀ (st : IndexerState) (path oldest : String) (rest : List String),
      IndexerInv st →
      st.pendingUpdates = oldest :: rest →
      path ∉ st.pendingUpdates →
      st.pendingUpdates.length = MAX_PENDING_UPDATES →
      (debouncedIndex st path).pendingUpdates = rest ++ [path] ∧
      dmGet (debouncedIndex st path).droppedFiles oldest =
        some ((dmGet st.droppedFiles oldest).getD 0 + 1)) := by
  obtain ⟨h1, h2, h3, h4, h5⟩ := inv_ixRun events
  refine ⟨h1, h3, ?_, ?_⟩
  · intro e he
    have := h5 e he
    unfold MAX_RETRY_COUNT
    omega
  · intro st path oldest rest hinv hpend hnotmem hlen
    obtain ⟨g1, g2, g3, g4, g5⟩ := hinv
    have hrem : setRemove st.pendingUpdates path = oldest :: rest := by
      rw [setRemove_eq_of_not_mem _ _ hnotmem, hpend]
    have holdget : dmGet st.droppedFiles oldest = none :=
      g4 oldest (hpend ▸ List.mem_cons_self _ _)
    have holddel : dmGet (dmDelete st.droppedFiles path) oldest = none :=
      dmGet_dmDelete_of_none _ _ _ holdget
    have hfullc : MAX_PENDING_UPDATES ≤ (oldest :: rest).length := by
      rw [← hpend, hlen]
    have hlow : (dmGet (dmDelete st.droppedFiles path) oldest).getD 0 <
        MAX_RETRY_COUNT := by
      rw [holddel]
      norm_num [MAX_RETRY_COUNT]
    have hpnr : path ∉ rest := fun hm =>
      hnotmem (hpend ▸ List.mem_cons_of_mem _ hm)
    rw [debouncedIndex_full_keep st path oldest rest hrem hfullc hlow]
    refine ⟨?_, ?_⟩
    · show setAdd rest path = rest ++ [path]
      exact setAdd_eq_append rest path hpnr
    · show dmGet (dmSet (dmDelete st.droppedFiles path) oldest
          ((dmGet (dmDelete st.droppedFiles path) oldest).getD 0 + 1)) oldest =
        some ((dmGet st.droppedFiles oldest).getD 0 + 1)
      rw [dmGet_dmSet_self _ _ _ holddel, holddel, holdget]

/-- Witness for `noteIndexer_queue_bound`: the bound after one concrete
event, and a concrete full-queue eviction: a fresh 50-element queue
holding "" and 49 other paths, scheduling "b", drops "" with retry
count 1 and keeps the queue at 50. -/
theorem noteIndexer_queue_bound_witness :
    (ixRun [IxEvent.fileChanged "journal/a.md"]).pendingUpdates.length ≤
      MAX_PENDING_UPDATES ∧
    (IndexerInv
      { pendingUpdates := (List.range 50).map (fun n => String.mk (List.replicate n 'a')),
        droppedFiles := [], indexingPaths := [], isDestroyed := false } ∧
     (debouncedIndex
        { pendingUpdates := (List.range 50).map (fun n => String.mk (List.replicate n 'a')),
          droppedFiles := [], indexingPaths := [], isDestroyed := false }
        "b").pendingUpdates =
        ((List.range 50).map (fun n => String.mk (List.replicate n 'a'))).tail ++ ["b"] ∧
     dmGet (debouncedIndex
        { pendingUpdates := (List.range 50).map (fun n => String.mk (List.replicate n 'a')),
          droppedFiles := [], indexingPaths := [], isDestroyed := false }
        "b").droppedFiles "" = some 1) := by
  have hinv : IndexerInv
      { pendingUpdates := (List.range 50).map (fun n => String.mk (List.replicate n 'a')),
        droppedFiles := [], indexingPaths := [], isDestroyed := false } := by
    decide
  have hpend : ((List.range 50).map (fun n => String.mk (List.replicate n 'a'))) =
      "" :: ((List.range 50).map (fun n => String.mk (List.replicate n 'a'))).tail := by
    decide
  have hb : "b" ∉ (List.range 50).map (fun n => String.mk (List.replicate n 'a')) := by
    decide
  have hlen : ((List.range 50).map (fun n => String.mk (List.replicate n 'a'))).length =
      MAX_PENDING_UPDATES := by
    decide
  have hmain := (noteIndexer_queue_bound [IxEvent.fileChanged "journal/a.md"]).2.2.2
    { pendingUpdates := (List.range 50).map (fun n => String.mk (List.replicate n 'a')),
      droppedFiles := [], indexingPaths := [], isDestroyed := false }
    "b" "" (((List.range 50).map (fun n => String.mk (List.replicate n 'a'))).tail)
    hinv hpend hb hlen
  refine ⟨(noteIndexer_queue_bound [IxEvent.fileChanged "journal/a.md"]).1,
    hinv, hmain.1, ?_⟩
  rw [hmain.2]
  decide

end ReflectionChat
